import Mathlib

/-!
Verification development for the device-resident particle storage core
(`pysph/base/opencl.py`): a shallow embedding of `DeviceArray` (resizable
device buffer) and `DeviceHelper` (particle device store), together with
theorems settling the specification's testable properties.

Modelling conventions:
* Device memory cells are `Option ℕ`: `none` is an uninitialised cell
  (`cl.array.empty` gives undefined contents), `some v` a written value.
  Property values are embedded as naturals; no claim performs arithmetic on
  stored values, only copies, fills and comparisons, so the carrier type is
  immaterial.
* A `DeviceArray` carries its allocation (`data`, whose length is the
  source's `self.alloc`, always equal to `len(self._data)`) and the logical
  `length`; `array` is the view `self._data[:self.length]`.
* Operations that raise in Python (`ValueError`, `KeyError`, out-of-bounds
  device writes) return `none` in an `Option` result.
* The Python slice `xs[:-k]` is `pySliceDropLast xs k`: for `k = 0` it is
  `xs[:0] = []`, which is the source of the `remove`-with-empty-indices
  behaviour examined below.
-/

/-- Python slice `xs[:-k]`: all but the last `k` elements, except that
`k = 0` yields `xs[:0] = []` (the negative-zero slicing pitfall). -/
def pySliceDropLast (l : List (Option ℕ)) (k : ℕ) : List (Option ℕ) :=
  if k = 0 then [] else l.take (l.length - k)

/-- Embedding of `DeviceArray`: `data` models the allocated region
`self._data` (so `alloc = data.length`), `length` the logical size. -/
structure DeviceArray where
  data : List (Option ℕ)
  length : ℕ
deriving DecidableEq, Repr

namespace DeviceArray

/-- `self.alloc`, always `len(self._data)` in the source. -/
def alloc (a : DeviceArray) : ℕ := a.data.length

/-- `self.array = self._data[:self.length]`. -/
def array (a : DeviceArray) : List (Option ℕ) := a.data.take a.length

/-- `DeviceArray.__init__(dtype, n)`: `cl.array.empty` of size `n`
(`16` when `n == 0`), logical length `n`, contents undefined. -/
def init (n : ℕ) : DeviceArray :=
  ⟨List.replicate (if n = 0 then 16 else n) none, n⟩

/-- `set_data(data)`: replaces the allocation, `length = alloc = data.size`. -/
def set_data (d : List (Option ℕ)) : DeviceArray := ⟨d, d.length⟩

/-- `reserve(size)`: if `size > alloc`, allocate a fresh region of exactly
`size` (uninitialised), copy the old allocation into its prefix. -/
def reserve (a : DeviceArray) (size : ℕ) : DeviceArray :=
  if size > a.alloc then ⟨a.data ++ List.replicate (size - a.alloc) none, a.length⟩ else a

/-- `resize(size)`: `reserve(size)` then `length = size`. -/
def resize (a : DeviceArray) (size : ℕ) : DeviceArray :=
  { a.reserve size with length := size }

/-- `fill(value)`: `self.array.fill(value)` overwrites the logical view
`self._data[:self.length]` (clamped to the allocation, as Python slices are). -/
def fill (a : DeviceArray) (v : ℕ) : DeviceArray :=
  ⟨List.replicate (min a.length a.data.length) (some v)
      ++ a.data.drop (min a.length a.data.length), a.length⟩

/-- `copy()`: a fresh buffer holding exactly the logical contents. -/
def copy (a : DeviceArray) : DeviceArray := set_data a.array

/-- The conditional growth step of `append`:
`if self.length >= self.alloc: self.reserve(2 * self.length)`. -/
def grow (a : DeviceArray) : DeviceArray :=
  if a.length ≥ a.alloc then a.reserve (2 * a.length) else a

/-- `append(value)`: the growth step above, then
`self._data[self.length] = value` — an out-of-bounds device write (`none`)
when `length` still reaches the allocation — then `length += 1`. -/
def append (a : DeviceArray) (v : ℕ) : Option DeviceArray :=
  if a.length < a.grow.alloc
  then some ⟨a.grow.data.set a.length (some v), a.length + 1⟩
  else none

/-- `extend(cl_arr)`: conditional `reserve(length + len(cl_arr))`, then the
write `self._data[-len(cl_arr):] = cl_arr`, which targets the last
`len(cl_arr)` cells of the ALLOCATION, then `length += len(cl_arr)`.
(The `len(cl_arr) = 0` case, which raises a shape mismatch in Python for a
nonempty allocation, is not exercised by any claim; the model writes
nothing.) -/
def extend (a : DeviceArray) (vs : List ℕ) : DeviceArray :=
  let a' := if a.length + vs.length > a.alloc then a.reserve (a.length + vs.length) else a
  ⟨a'.data.take (a'.data.length - vs.length) ++ vs.map some, a'.length + vs.length⟩

/-- `copy_values(indices, dest)`: the gathered sequence
`cl.array.take(self.array, indices)` (out-of-range reads are undefined,
hence `none`). -/
def copy_values (a : DeviceArray) (idx : List ℕ) : List (Option ℕ) :=
  idx.map (fun i => a.array.getD i none)

/-- `align(indices)`: `set_data(cl.array.take(self.array, indices))`. -/
def align (a : DeviceArray) (idx : List ℕ) : DeviceArray :=
  set_data (a.copy_values idx)

/-- `remove(indices)`: `ValueError` when `len(indices) > self.length`;
otherwise parallel stream compaction into a copy of the logical contents
(slots past the survivor count keep the copied stale values), finished by
`set_data(new_array.array[:-len(indices)])`. -/
def remove (a : DeviceArray) (indices : List ℕ) : Option DeviceArray :=
  if indices.length > a.length then none
  else
    let kept := (List.range a.array.length).filter (fun i => !(indices.contains i))
    let survivors := kept.map (fun i => a.array.getD i none)
    some (set_data (pySliceDropLast (survivors ++ a.array.drop survivors.length) indices.length))

end DeviceArray

/-- C2: for a buffer of length `n` and distinct `R ⊆ [0,n)` including `R = ∅`,
`remove(R)` should delete exactly the positions in `R`.  Evaluation at the
failing input: a length-2 buffer holding `[5, 7]` with `R = ∅` is emptied by
`remove` (the slice `new_array.array[:-0]` is `[:0]`), instead of being left
unchanged with length `2 − 0 = 2`. -/
theorem remove_empty_indices_empties_buffer :
    DeviceArray.remove ⟨[some 5, some 7], 2⟩ [] = some ⟨[], 0⟩ ∧
    ([] : List (Option ℕ)) ≠ [some 5, some 7] := by
  exact ⟨by decide, by decide⟩

/-- C3: `extend(vs)` should place `vs` at logical positions
`[old_length, old_length + |vs|)`.  Evaluation at the failing input: a buffer
created empty (length 0, allocation 16) extended by `[5]` writes the value at
allocation slot 15, so the logical view of length 1 still holds the
uninitialised cell, not `5`. -/
theorem extend_with_spare_capacity_misplaces_values :
    (DeviceArray.extend (DeviceArray.init 0) [5]).array = [none] ∧
    ([none] : List (Option ℕ)) ≠ [some 5] := by
  exact ⟨by decide, by decide⟩

/-- `List.getD` through a `take`, below the cut. -/
theorem getD_take_of_lt {α : Type} (l : List α) (d : α) (n i : ℕ) (h : i < n) :
    (l.take n).getD i d = l.getD i d := by
  rw [List.getD_eq_getElem?_getD, List.getD_eq_getElem?_getD, List.getElem?_take, if_pos h]

/-- `List.getD` through a `set`, at the written index. -/
theorem getD_set_self {α : Type} (l : List α) (d v : α) (i : ℕ) (h : i < l.length) :
    (l.set i v).getD i d = v := by
  rw [List.getD_eq_getElem?_getD, List.getElem?_set, if_pos rfl, if_pos h]
  rfl

/-- `List.getD` through a `set`, away from the written index. -/
theorem getD_set_ne {α : Type} (l : List α) (d v : α) (i j : ℕ) (h : i ≠ j) :
    (l.set i v).getD j d = l.getD j d := by
  rw [List.getD_eq_getElem?_getD, List.getD_eq_getElem?_getD, List.getElem?_set, if_neg h]

/-- `List.getD` through an append, inside the left list. -/
theorem getD_append_of_lt {α : Type} (l l' : List α) (d : α) (i : ℕ) (h : i < l.length) :
    (l ++ l').getD i d = l.getD i d := by
  rw [List.getD_eq_getElem?_getD, List.getD_eq_getElem?_getD, List.getElem?_append, if_pos h]

namespace DeviceArray

/-- The allocation-bound invariant `0 ≤ length ≤ capacity` (the lower bound
is inherent to `ℕ`). -/
def WF (a : DeviceArray) : Prop := a.length ≤ a.data.length

theorem reserve_length (a : DeviceArray) (s : ℕ) : (a.reserve s).length = a.length := by
  unfold reserve; split <;> rfl

theorem reserve_data_length (a : DeviceArray) (s : ℕ) :
    (a.reserve s).data.length = max a.data.length s := by
  unfold reserve alloc; split <;> simp <;> omega

theorem resize_length (a : DeviceArray) (s : ℕ) : (a.resize s).length = s := rfl

theorem resize_data_length (a : DeviceArray) (s : ℕ) :
    (a.resize s).data.length = max a.data.length s := reserve_data_length a s

theorem extend_length (a : DeviceArray) (vs : List ℕ) :
    (a.extend vs).length = a.length + vs.length := by
  unfold extend; split <;> simp [reserve_length]

theorem extend_data_length (a : DeviceArray) (vs : List ℕ) :
    (a.extend vs).data.length = max a.data.length (a.length + vs.length) := by
  unfold extend alloc
  split
  · rename_i h
    simp [reserve_data_length]
    omega
  · rename_i h
    simp at h ⊢
    omega

theorem extend_WF (a : DeviceArray) (vs : List ℕ) : (a.extend vs).WF := by
  unfold WF
  rw [extend_length, extend_data_length]
  omega

theorem resize_WF (a : DeviceArray) (s : ℕ) : (a.resize s).WF := by
  unfold WF
  rw [resize_length, resize_data_length]
  omega

theorem grow_of_lt (a : DeviceArray) (h : a.length < a.alloc) : a.grow = a := by
  unfold grow; exact if_neg (by omega)

theorem grow_of_ge (a : DeviceArray) (h : a.length ≥ a.alloc) :
    a.grow = a.reserve (2 * a.length) := by
  unfold grow; exact if_pos h

/-- `append` on a buffer of nonzero capacity: when full it reserves
`2*length` first, writes at the then in-bounds index `length`, increments
`length`, and preserves the prior logical contents. -/
theorem append_some (a : DeviceArray) (v : ℕ) (hwf : a.WF) (hpos : 0 < a.data.length) :
    ∃ b, a.append v = some b ∧ b.length = a.length + 1 ∧ b.WF ∧
      b.array.getD a.length none = some v ∧
      ∀ i, i < a.length → b.array.getD i none = a.array.getD i none := by
  have hwf' : a.length ≤ a.data.length := hwf
  have hga : a.grow.data.length = max a.data.length (if a.length < a.data.length then 0 else 2 * a.length) := by
    rcases Nat.lt_or_ge a.length a.data.length with hlt | hge
    · rw [grow_of_lt a hlt, if_pos hlt]
      omega
    · rw [grow_of_ge a hge, reserve_data_length, if_neg (by omega)]
  have hgd : a.grow.data.take a.length = a.data.take a.length := by
    rcases Nat.lt_or_ge a.length a.data.length with hlt | hge
    · rw [grow_of_lt a hlt]
    · rw [grow_of_ge a hge]
      unfold reserve
      split
      · show ((a.data ++ _).take a.length) = _
        rw [List.take_append_of_le_length (by omega)]
      · rfl
  have hlt : a.length < a.grow.alloc := by
    show a.length < a.grow.data.length
    rw [hga]
    split <;> omega
  unfold append
  rw [if_pos hlt]
  refine ⟨_, rfl, rfl, ?_, ?_, ?_⟩
  · show a.length + 1 ≤ (a.grow.data.set a.length (some v)).length
    rw [List.length_set]
    exact hlt
  · show ((a.grow.data.set a.length (some v)).take (a.length + 1)).getD a.length none = some v
    rw [getD_take_of_lt _ _ _ _ (by omega), getD_set_self]
    exact hlt
  · intro i hi
    show ((a.grow.data.set a.length (some v)).take (a.length + 1)).getD i none
        = (a.data.take a.length).getD i none
    rw [getD_take_of_lt _ _ _ _ (by omega), getD_set_ne _ _ _ _ _ (by omega),
      ← getD_take_of_lt a.grow.data none a.length i hi, hgd]

theorem append_WF (a b : DeviceArray) (v : ℕ) (h : a.append v = some b) : b.WF := by
  unfold append at h
  split at h
  · rename_i hlt
    injection h with h
    subst h
    show a.length + 1 ≤ (List.set _ _ _).length
    rw [List.length_set]
    exact hlt
  · exact absurd h (by simp)

end DeviceArray

/-- A single buffer-level structural call from the capacity-invariant claim:
`append`, `extend` or `resize`. -/
inductive BufOp where
  | app (v : ℕ)
  | ext (vs : List ℕ)
  | res (m : ℕ)

/-- Run one buffer operation; `none` models a raised error. -/
def BufOp.run (b : DeviceArray) : BufOp → Option DeviceArray
  | .app v => b.append v
  | .ext vs => some (b.extend vs)
  | .res m => some (b.resize m)

/-- Documented precondition of a buffer call: `extend` takes a nonempty
sequence of values (`self._data[-0:] = cl_arr` raises a shape mismatch). -/
def BufOp.pre : BufOp → Prop
  | .ext vs => vs ≠ []
  | _ => True

/-- A sequence of buffer calls, stopping at the first raised error. -/
def runBufOps (b : DeviceArray) (ops : List BufOp) : Option DeviceArray :=
  ops.foldlM BufOp.run b

theorem BufOp.run_WF (b b' : DeviceArray) (op : BufOp) (h : op.run b = some b') : b'.WF := by
  cases op with
  | app v => exact DeviceArray.append_WF b b' v h
  | ext vs =>
    injection h with h
    subst h
    exact DeviceArray.extend_WF b vs
  | res m =>
    injection h with h
    subst h
    exact DeviceArray.resize_WF b m

theorem runBufOps_WF (b b' : DeviceArray) (ops : List BufOp) (hwf : b.WF)
    (h : runBufOps b ops = some b') : b'.WF := by
  induction ops generalizing b with
  | nil =>
    unfold runBufOps at h
    injection h with h
    subst h
    exact hwf
  | cons op t ih =>
    unfold runBufOps at h ih
    rw [List.foldlM_cons] at h
    cases hr : op.run b with
    | none => rw [hr] at h; exact absurd h (by simp)
    | some b1 =>
      rw [hr] at h
      exact ih b1 (BufOp.run_WF b b1 op hr) h

/-- C9 counterexample: `append` does NOT always succeed.  The code has no
nonzero capacity floor in `append` itself: removing the only element of a
buffer yields a zero-capacity buffer (`set_data` of an empty slice), and on
it `reserve(2*0)` is a no-op, so the write `self._data[0] = value` is out of
bounds and `append` fails. -/
theorem remove_all_then_append_fails :
    DeviceArray.remove ⟨[some 7], 1⟩ [0] = some ⟨[], 0⟩ ∧
    DeviceArray.append ⟨[], 0⟩ 5 = none := by
  exact ⟨by decide, by decide⟩

/-- C9 (amended): after every successful call of a sequence of
`append`/`extend`/`resize` calls, `0 ≤ length ≤ capacity` holds; and
`append(value)` succeeds on every buffer of NONZERO capacity (construction
supplies the nonzero floor: an empty-constructed buffer gets capacity 16):
when `length == capacity` it first grows the capacity via `reserve(2*length)`,
then writes `value` at the in-bounds index `length` and increments `length`
by one, preserving the prior logical contents.  (On a zero-capacity buffer,
reachable via `remove`/`set_data`, `append` instead fails out of bounds.) -/
theorem capacity_invariant_and_append_behaviour :
    (∀ (b b' : DeviceArray) (ops : List BufOp), b.WF →
      runBufOps b ops = some b' → b'.WF) ∧
    (∀ (b : DeviceArray) (v : ℕ), b.WF → 0 < b.data.length →
      ∃ b', b.append v = some b' ∧ b'.length = b.length + 1 ∧ b'.WF ∧
        b'.array.getD b.length none = some v ∧
        ∀ i, i < b.length → b'.array.getD i none = b.array.getD i none) :=
  ⟨fun b b' ops hwf h => runBufOps_WF b b' ops hwf h,
   fun b v hwf hpos => DeviceArray.append_some b v hwf hpos⟩

/-- Witness for the amended C9 theorem at concrete inputs. -/
theorem capacity_invariant_and_append_behaviour_witness :
    (∃ b', runBufOps (DeviceArray.init 0) [BufOp.res 2, BufOp.app 9] = some b' ∧ b'.WF) ∧
    (∃ b', DeviceArray.append (DeviceArray.init 2) 5 = some b' ∧ b'.length = 3) := by
  constructor
  · have hrun : (runBufOps (DeviceArray.init 0) [BufOp.res 2, BufOp.app 9]).isSome := by decide
    obtain ⟨b', hb'⟩ := Option.isSome_iff_exists.mp hrun
    exact ⟨b', hb',
      capacity_invariant_and_append_behaviour.1 (DeviceArray.init 0) b' _ (Nat.zero_le _) hb'⟩
  · obtain ⟨b', h1, h2, -⟩ :=
      capacity_invariant_and_append_behaviour.2 (DeviceArray.init 2) 5 (le_refl _) (by decide)
    exact ⟨b', h1, by rw [h2]; rfl⟩

/-- Fill a list from position `start` to its end with `v`
(Python slice-assign `xs[start:] = scalar`; a no-op when `start ≥ len(xs)`). -/
def listFillFrom {β : Type} (l : List β) (start : ℕ) (v : β) : List β :=
  l.take start ++ List.replicate (l.length - start) v

namespace DeviceArray

/-- Slice assignment `self.array[start:] = value` (scalar broadcast): fills
positions `[start, len(self.array))` of the logical view, allocation cells
past the view untouched. -/
def sliceFill (a : DeviceArray) (start : ℕ) (v : ℕ) : DeviceArray :=
  ⟨listFillFrom (a.data.take (min a.length a.data.length)) start (some v)
      ++ a.data.drop (min a.length a.data.length), a.length⟩

/-- Slice assignment `self.array[start:] = vals` (sequence, sizes must agree:
the device raises on a shape mismatch, callers guarantee
`start + |vals| = len(self.array)`). -/
def sliceAssign (a : DeviceArray) (start : ℕ) (vals : List (Option ℕ)) : DeviceArray :=
  ⟨(a.data.take (min a.length a.data.length)).take start ++ vals
      ++ (a.data.take (min a.length a.data.length)).drop (start + vals.length)
      ++ a.data.drop (min a.length a.data.length), a.length⟩

end DeviceArray

/-- Embedding of `DeviceHelper`, the particle device store: `data` is the
dict `self._data` (properties and constants share it), `properties` and
`constants` the two name lists, `default_values` the host container's
per-property defaults (`self._particle_array.default_values`, a total map:
the host registers a default with every property), and
`num_real_particles` the cached real-particle count. -/
@[ext]
structure DeviceHelper where
  data : String → Option DeviceArray
  properties : List String
  constants : List String
  default_values : String → ℕ
  num_real_particles : ℕ

/-- Python dict update `d[k] = v`. -/
def dictSet (d : String → Option DeviceArray) (k : String) (v : DeviceArray) :
    String → Option DeviceArray :=
  fun q => if q = k then some v else d q

theorem dictSet_self (d : String → Option DeviceArray) (k : String) (v : DeviceArray) :
    dictSet d k v k = some v := if_pos rfl

theorem dictSet_ne (d : String → Option DeviceArray) (k q : String) (v : DeviceArray)
    (h : q ≠ k) : dictSet d k v q = d q := if_neg h

/-- First-match lookup in an association list (a Python dict read). -/
def lookupStr {α : Type} : List (String × α) → String → Option α
  | [], _ => none
  | (a, b) :: t, k => if a = k then some b else lookupStr t k

namespace DeviceHelper

/-- `update_prop(name, dev_array)`: store the buffer in `self._data` and
register the name among the properties when new. -/
def update_prop (s : DeviceHelper) (name : String) (arr : DeviceArray) : DeviceHelper :=
  { s with data := dictSet s.data name arr,
           properties := if name ∈ s.properties then s.properties
                         else s.properties ++ [name] }

/-- `update_const(name, dev_array)`. -/
def update_const (s : DeviceHelper) (name : String) (arr : DeviceArray) : DeviceHelper :=
  { s with data := dictSet s.data name arr,
           constants := if name ∈ s.constants then s.constants
                        else s.constants ++ [name] }

/-- `get_number_of_particles()`: `len(self._data[self.properties[0]].array)`
when a property exists, else 0; a missing dict entry raises (`none`). -/
def get_number_of_particles (s : DeviceHelper) : Option ℕ :=
  match s.properties with
  | [] => some 0
  | p :: _ => (s.data p).map (fun a => a.array.length)

/-- The `for prop in self.properties` loops of the store: replace each
property buffer by `f prop buffer`, failing on a missing dict entry. -/
def overProps (s : DeviceHelper) (f : String → DeviceArray → DeviceArray) :
    Option DeviceHelper :=
  s.properties.foldlM (fun st p =>
    match st.data p with
    | none => none
    | some a => some (st.update_prop p (f p a))) s

/-- `align(indices)`: gather every property buffer by the same index list. -/
def align (s : DeviceHelper) (idx : List ℕ) : Option DeviceHelper :=
  s.overProps (fun _ a => a.align idx)

end DeviceHelper

theorem update_prop_properties_of_mem (s : DeviceHelper) (p : String) (v : DeviceArray)
    (h : p ∈ s.properties) : (s.update_prop p v).properties = s.properties := if_pos h

theorem overProps_aux (f : String → DeviceArray → DeviceArray) (l : List String)
    (st : DeviceHelper) (hl : ∀ p ∈ l, p ∈ st.properties) (hnd : l.Nodup)
    (hsome : ∀ p ∈ l, (st.data p).isSome) :
    l.foldlM (fun st p =>
      match st.data p with
      | none => none
      | some a => some (st.update_prop p (f p a))) st
    = some { st with data := fun q => if q ∈ l then (st.data q).map (f q) else st.data q } := by
  induction l generalizing st with
  | nil =>
    simp only [List.foldlM_nil]
    rfl
  | cons p l' ih =>
    have hp : p ∈ st.properties := hl p (List.mem_cons_self p l')
    have hsp := hsome p (List.mem_cons_self p l')
    cases hpa : st.data p with
    | none => rw [hpa] at hsp; exact absurd hsp (by simp)
    | some a =>
      rw [List.foldlM_cons, hpa]
      have hpl' : p ∉ l' := (List.nodup_cons.mp hnd).1
      have hnd' : l'.Nodup := (List.nodup_cons.mp hnd).2
      have hprops : (st.update_prop p (f p a)).properties = st.properties :=
        update_prop_properties_of_mem st p (f p a) hp
      have step := ih (st.update_prop p (f p a))
        (fun q hq => hprops ▸ hl q (List.mem_cons_of_mem p hq))
        hnd'
        (fun q hq => by
          show ((st.update_prop p (f p a)).data q).isSome
          have hqp : q ≠ p := fun hq' => hpl' (hq' ▸ hq)
          show (dictSet st.data p (f p a) q).isSome
          rw [dictSet_ne _ _ _ _ hqp]
          exact hsome q (List.mem_cons_of_mem p hq))
      refine Eq.trans step (congrArg some (DeviceHelper.ext ?_ ?_ ?_ ?_ ?_))
      · funext q
        show (if q ∈ l' then ((st.update_prop p (f p a)).data q).map (f q)
              else (st.update_prop p (f p a)).data q)
            = (if q ∈ p :: l' then (st.data q).map (f q) else st.data q)
        by_cases hql : q ∈ l'
        · rw [if_pos hql, if_pos (List.mem_cons_of_mem p hql)]
          have hqp : q ≠ p := fun h => hpl' (h ▸ hql)
          show (dictSet st.data p (f p a) q).map (f q) = (st.data q).map (f q)
          rw [dictSet_ne _ _ _ _ hqp]
        · rw [if_neg hql]
          by_cases hqp : q = p
          · subst hqp
            rw [if_pos (List.mem_cons_self q l')]
            show dictSet st.data q (f q a) q = (st.data q).map (f q)
            rw [dictSet_self, hpa]
            rfl
          · rw [if_neg (by simp [hqp, hql] : ¬ q ∈ p :: l')]
            show dictSet st.data p (f p a) q = st.data q
            exact dictSet_ne _ _ _ _ hqp
      · exact hprops
      · rfl
      · rfl
      · rfl

theorem overProps_eq (s : DeviceHelper) (f : String → DeviceArray → DeviceArray)
    (hnd : s.properties.Nodup) (hsome : ∀ p ∈ s.properties, (s.data p).isSome) :
    s.overProps f
      = some { s with data := fun q => if q ∈ s.properties
                                       then (s.data q).map (f q) else s.data q } :=
  overProps_aux f s.properties s (fun _ h => h) hnd hsome

/-- The 2-bit radix-sort key of index `i`: `RadixSort(..., key_expr="tags[i]",
key_bits=2)` orders by the low two bits of the tag value only (an undefined
tag cell reads as an undefined key; `0` stands in for it). -/
def radixKey (tags : List (Option ℕ)) (i : ℕ) : ℕ :=
  ((tags.getD i none).getD 0) % 4

/-- The stable 2-bit radix sort of the index sequence `[0, n)` keyed on
`tags[i]`: indices with key 0 first (in original order), then keys 1, 2, 3. -/
def radixSortedIndices (tags : List (Option ℕ)) (n : ℕ) : List ℕ :=
  ((List.range n).filter (fun i => radixKey tags i == 0))
    ++ ((List.range n).filter (fun i => radixKey tags i == 1))
    ++ ((List.range n).filter (fun i => radixKey tags i == 2))
    ++ ((List.range n).filter (fun i => radixKey tags i == 3))

/-- `NUM_REAL_PARTICLES_KNL`: writes `i` to the 1-cell zero-initialised
output whenever `i != 0 && tag_array[i] != tag_array[i-1] &&
tag_array[i-1] == 0`.  The device race between concurrent writers is benign
on any input reachable here: on a tag array sorted over a 2-bit tag domain
at most one index satisfies the condition, so the fold (last writer wins)
agrees with every schedule. -/
def numRealScan (tags : List (Option ℕ)) : ℕ :=
  (List.range tags.length).foldl
    (fun acc i =>
      if i ≠ 0 ∧ tags.getD i none ≠ tags.getD (i - 1) none ∧ tags.getD (i - 1) none = some 0
      then i else acc) 0

namespace DeviceHelper

/-- `align_particles()`: stable radix sort of `[0, n)` keyed on the low two
bits of the tag, gather of every property by the sorted index sequence, then
the transition scan recomputing `num_real_particles`. -/
def align_particles (s : DeviceHelper) : Option DeviceHelper :=
  match s.data "tag" with
  | none => none
  | some t =>
    match s.get_number_of_particles with
    | none => none
    | some n =>
      match s.align (radixSortedIndices t.array n) with
      | none => none
      | some s' =>
        match s'.data "tag" with
        | none => none
        | some t' => some { s' with num_real_particles := numRealScan t'.array }

/-- `remove_particles(indices)`: `ValueError` when more indices than
particles; otherwise one shared compaction of the surviving original indices
(`new_indices`), every property gathered by the slice
`new_indices.array[:-len(indices)]` (for an empty index set that Python
slice is `[:0] = []`), then `align_particles()` when anything was removed. -/
def remove_particles (s : DeviceHelper) (indices : List ℕ) : Option DeviceHelper :=
  match s.get_number_of_particles with
  | none => none
  | some n =>
    if indices.length > n then none
    else
      let kept := (List.range n).filter (fun i => !(indices.contains i))
      let alignIdx := if indices.length = 0 then [] else kept.take (n - indices.length)
      match s.align alignIdx with
      | none => none
      | some s' => if 0 < indices.length then s'.align_particles else some s'

/-- `remove_tagged_particles(tag)`: collect every index whose tag equals
`tag` (the atomic collection order is irrelevant: only membership and count
reach `remove_particles`), no-op when none match. -/
def remove_tagged_particles (s : DeviceHelper) (tag : ℕ) : Option DeviceHelper :=
  match s.data "tag" with
  | none => none
  | some t =>
    let hits := (List.range t.array.length).filter (fun i => t.array.getD i none == some tag)
    if hits.length = 0 then some s else s.remove_particles hits

/-- `add_particles(**particle_props)`: no-op on an empty batch; unknown
property names are an `AttributeError`; the batch size is the length of the
first supplied buffer; every present property is `extend`ed, every absent
property `resize`d and default-filled on the tail; ends with
`align_particles()` for a positive batch. -/
def add_particles (s : DeviceHelper) (input : List (String × List ℕ)) :
    Option DeviceHelper :=
  match input with
  | [] => some s
  | (_, vs₀) :: _ =>
    if input.all (fun pr => decide (pr.1 ∈ s.properties)) then
      match s.get_number_of_particles with
      | none => none
      | some old =>
        let k := vs₀.length
        match s.overProps (fun p a =>
          match lookupStr input p with
          | some vs => a.extend vs
          | none => (a.resize (k + old)).sliceFill old (s.default_values p)) with
        | none => none
        | some s' => if 0 < k then s'.align_particles else some s'
    else none

/-- Store-level `extend(num_particles)`: immediate return when
`num_particles <= 0`; otherwise resize every property to `old + num` and
default-fill the new tail.  Does not call `align_particles`. -/
def extend (s : DeviceHelper) (num : ℤ) : Option DeviceHelper :=
  if num ≤ 0 then some s
  else
    match s.get_number_of_particles with
    | none => none
    | some old =>
      s.overProps (fun p a => (a.resize (old + num.toNat)).sliceFill old (s.default_values p))

/-- `append_parray(parray)`: no-op when the other store is empty; extend
self by the incoming count; for a property in both stores write the source
values over the new tail; for a property only in the other store the code
reads `self._data[prop_name].dtype` — a `KeyError` (`none`) since the
property is absent from self — before it would build the default-filled
buffer and copy the tail in; constants only in the other store are copied
wholesale; ends with `align_particles()`. -/
def append_parray (s other : DeviceHelper) : Option DeviceHelper :=
  match other.get_number_of_particles with
  | none => none
  | some onum =>
    if onum = 0 then some s
    else
      match s.get_number_of_particles with
      | none => none
      | some oldNum =>
        match s.extend (onum : ℤ) with
        | none => none
        | some s1 =>
          match other.properties.foldlM (fun st pname =>
            if pname ∈ st.properties then
              match st.data pname, other.data pname with
              | some arr, some src =>
                  some { st with data := dictSet st.data pname
                                   (arr.sliceAssign oldNum src.array) }
              | _, _ => none
            else
              match st.data pname with
              | none => none
              | some _ =>
                let arr := (DeviceArray.init (onum + oldNum)).fill
                             (other.default_values pname)
                let st' := st.update_prop pname arr
                match st'.data pname, other.data pname with
                | some dest, some src =>
                    some { st' with data := dictSet st'.data pname
                                      (dest.sliceAssign oldNum src.array) }
                | _, _ => none) s1 with
          | none => none
          | some s2 =>
            match other.constants.foldlM (fun st cname =>
              if cname ∈ st.constants then some st
              else
                match other.data cname with
                | none => none
                | some arr => some (st.update_const cname arr.copy)) s2 with
            | none => none
            | some s3 => if 0 < onum then s3.align_particles else some s3

end DeviceHelper

/-- Modelled from the spec: the fresh host container (`ParticleArray()`)
and its device helper built by `extract_particles` — the host-side
`particle_array.py` is not part of the sources; the spec says the operation
"produces a brand-new, independent store", so the result starts with no
properties, no constants and no defaults. -/
def emptyHelper : DeviceHelper :=
  ⟨fun _ => none, [], [], fun _ => 0, 0⟩

namespace DeviceHelper

/-- `extract_particles(indices, props)`: early return of the fresh empty
store when `indices` is empty (before anything is copied); otherwise gather
each requested property into a buffer of length `len(indices)` (registering
name and default on the result), copy every constant wholesale, and
re-align the result. -/
def extract_particles (s : DeviceHelper) (indices : List ℕ)
    (props : Option (List String)) : Option DeviceHelper :=
  let propNames := match props with | none => s.properties | some l => l
  if indices = [] then some emptyHelper
  else
    match propNames.foldlM (fun r pname =>
      match s.data pname with
      | none => none
      | some srcArr =>
        let dst : DeviceArray := ⟨srcArr.copy_values indices, indices.length⟩
        let r' := { r with default_values :=
          fun q => if q = pname then s.default_values pname else r.default_values q }
        some (r'.update_prop pname dst)) emptyHelper with
    | none => none
    | some r1 =>
      match s.constants.foldlM (fun r c =>
        match s.data c with
        | none => none
        | some a => some (r.update_const c a.copy)) r1 with
      | none => none
      | some r2 => r2.align_particles

end DeviceHelper

theorem listFillFrom_length {β : Type} (l : List β) (s : ℕ) (v : β) :
    (listFillFrom l s v).length = l.length := by
  unfold listFillFrom
  simp [List.length_take]
  omega

namespace DeviceArray

theorem array_length (a : DeviceArray) (h : a.length ≤ a.data.length) :
    a.array.length = a.length := by
  unfold array
  rw [List.length_take]
  omega

theorem align_length (a : DeviceArray) (idx : List ℕ) : (a.align idx).length = idx.length := by
  simp [align, set_data, copy_values]

theorem align_data_length (a : DeviceArray) (idx : List ℕ) :
    (a.align idx).data.length = idx.length := by
  simp [align, set_data, copy_values]

theorem sliceFill_length (a : DeviceArray) (start v : ℕ) :
    (a.sliceFill start v).length = a.length := rfl

theorem sliceFill_data_length (a : DeviceArray) (start v : ℕ) :
    (a.sliceFill start v).data.length = a.data.length := by
  show (listFillFrom _ _ _ ++ _).length = _
  rw [List.length_append, listFillFrom_length, List.length_take, List.length_drop]
  omega

theorem sliceAssign_length (a : DeviceArray) (start : ℕ) (vals : List (Option ℕ)) :
    (a.sliceAssign start vals).length = a.length := rfl

theorem sliceAssign_data_length (a : DeviceArray) (start : ℕ) (vals : List (Option ℕ))
    (h : start + vals.length ≤ min a.length a.data.length) :
    (a.sliceAssign start vals).data.length = a.data.length := by
  show ((a.data.take (min a.length a.data.length)).take start ++ vals
      ++ (a.data.take (min a.length a.data.length)).drop (start + vals.length)
      ++ a.data.drop (min a.length a.data.length)).length = _
  simp [List.length_take, List.length_drop]
  omega

end DeviceArray

namespace DeviceHelper

/-- Mutual consistency of a store: property names are distinct, and every
property buffer is present with the same logical length `n`, within its
allocation. -/
def Consistent (s : DeviceHelper) (n : ℕ) : Prop :=
  s.properties.Nodup ∧
  ∀ p ∈ s.properties, ∃ a, s.data p = some a ∧ a.length = n ∧ a.length ≤ a.data.length

theorem Consistent.data_isSome {s : DeviceHelper} {n : ℕ} (h : s.Consistent n) :
    ∀ p ∈ s.properties, (s.data p).isSome := by
  intro p hp
  obtain ⟨a, ha, -, -⟩ := h.2 p hp
  rw [ha]
  rfl

theorem get_number_eq {s : DeviceHelper} {n : ℕ} (h : s.Consistent n)
    (hne : s.properties ≠ []) : s.get_number_of_particles = some n := by
  cases hp : s.properties with
  | nil => exact absurd hp hne
  | cons p t =>
    obtain ⟨a, ha, hlen, hwf⟩ := h.2 p (by rw [hp]; exact List.mem_cons_self p t)
    unfold get_number_of_particles
    rw [hp]
    show (s.data p).map (fun a => a.array.length) = some n
    rw [ha]
    simp [DeviceArray.array_length a hwf, hlen]

theorem get_number_some {s : DeviceHelper} {n : ℕ} (h : s.Consistent n) :
    ∃ n₀, s.get_number_of_particles = some n₀ ∧ (s.properties ≠ [] → n₀ = n) := by
  cases hp : s.properties with
  | nil => exact ⟨0, by unfold get_number_of_particles; rw [hp], fun hne => absurd rfl hne⟩
  | cons p t =>
    exact ⟨n, get_number_eq h (by rw [hp]; exact List.cons_ne_nil p t), fun _ => rfl⟩

theorem overProps_consistent (s : DeviceHelper) (f : String → DeviceArray → DeviceArray)
    (n m : ℕ) (h : s.Consistent n)
    (hf : ∀ p a, p ∈ s.properties → s.data p = some a → a.length = n →
          a.length ≤ a.data.length →
          (f p a).length = m ∧ (f p a).length ≤ (f p a).data.length) :
    ({ s with data := fun q => if q ∈ s.properties
                               then (s.data q).map (f q) else s.data q } :
        DeviceHelper).Consistent m := by
  refine ⟨h.1, ?_⟩
  intro p hp
  obtain ⟨a, ha, hlen, hwf⟩ := h.2 p hp
  refine ⟨f p a, ?_, (hf p a hp ha hlen hwf).1, (hf p a hp ha hlen hwf).2⟩
  show (if p ∈ s.properties then (s.data p).map (f p) else s.data p) = some (f p a)
  rw [if_pos hp, ha]
  rfl

/-- The post-state of a store-level `align(idx)` (every property gathered). -/
def alignedData (s : DeviceHelper) (idx : List ℕ) : String → Option DeviceArray :=
  fun q => if q ∈ s.properties then (s.data q).map (fun a => a.align idx) else s.data q

theorem align_eq (s : DeviceHelper) (idx : List ℕ) (hnd : s.properties.Nodup)
    (hsome : ∀ p ∈ s.properties, (s.data p).isSome) :
    s.align idx = some { s with data := alignedData s idx } :=
  overProps_eq s _ hnd hsome

/-- The post-state of `align_particles()` on a store whose tag buffer is `t`
and whose particle count read is `n₀`. -/
def alignedStore (s : DeviceHelper) (t : DeviceArray) (n₀ : ℕ) : DeviceHelper :=
  { s with data := alignedData s (radixSortedIndices t.array n₀),
           num_real_particles := numRealScan
             ((if "tag" ∈ s.properties
               then t.align (radixSortedIndices t.array n₀)
               else t).array) }

theorem align_particles_eq (s : DeviceHelper) (n n₀ : ℕ) (t : DeviceArray)
    (hc : s.Consistent n) (ht : s.data "tag" = some t)
    (hn : s.get_number_of_particles = some n₀) :
    s.align_particles = some (alignedStore s t n₀) := by
  have hval : alignedData s (radixSortedIndices t.array n₀) "tag"
      = some (if "tag" ∈ s.properties
              then t.align (radixSortedIndices t.array n₀) else t) := by
    unfold alignedData
    by_cases htag : "tag" ∈ s.properties
    · rw [if_pos htag, ht, if_pos htag]
      rfl
    · rw [if_neg htag, ht, if_neg htag]
  unfold align_particles
  rw [ht, hn]
  show (match s.align (radixSortedIndices t.array n₀) with
        | none => none
        | some s' =>
          match s'.data "tag" with
          | none => none
          | some t' => some { s' with num_real_particles := numRealScan t'.array }) = _
  rw [align_eq s _ hc.1 hc.data_isSome]
  show (match alignedData s (radixSortedIndices t.array n₀) "tag" with
        | none => none
        | some t' => some { { s with data := alignedData s (radixSortedIndices t.array n₀) }
                            with num_real_particles := numRealScan t'.array }) = _
  rw [hval]
  rfl

theorem alignedStore_consistent (s : DeviceHelper) (t : DeviceArray) (n n₀ : ℕ)
    (hc : s.Consistent n) :
    (alignedStore s t n₀).Consistent (radixSortedIndices t.array n₀).length := by
  exact overProps_consistent s (fun _ a => a.align (radixSortedIndices t.array n₀)) n _ hc
    (fun p a _ _ _ _ => ⟨DeviceArray.align_length a _,
      le_of_eq ((DeviceArray.align_length a _).trans
        (DeviceArray.align_data_length a _).symm)⟩)

theorem align_particles_some (s : DeviceHelper) (n : ℕ) (hc : s.Consistent n)
    (ht : (s.data "tag").isSome) :
    ∃ s' m, s.align_particles = some s' ∧ s'.Consistent m := by
  obtain ⟨t, ht'⟩ := Option.isSome_iff_exists.mp ht
  obtain ⟨n₀, hn, -⟩ := get_number_some hc
  exact ⟨alignedStore s t n₀, _, align_particles_eq s n n₀ t hc ht' hn,
    alignedStore_consistent s t n n₀ hc⟩

end DeviceHelper

/-- A small concrete store: one real particle, properties `tag` and `x`. -/
def egStore : DeviceHelper :=
  { data := fun q => if q = "tag" then some ⟨[some 0], 1⟩
            else if q = "x" then some ⟨[some 7], 1⟩ else none,
    properties := ["tag", "x"],
    constants := [],
    default_values := fun _ => 0,
    num_real_particles := 1 }

theorem egStore_consistent : egStore.Consistent 1 := by
  constructor
  · decide
  · intro p hp
    rcases List.mem_cons.mp hp with rfl | hp'
    · exact ⟨⟨[some 0], 1⟩, rfl, rfl, by decide⟩
    · rcases List.mem_cons.mp hp' with rfl | hp''
      · exact ⟨⟨[some 7], 1⟩, rfl, rfl, by decide⟩
      · exact absurd hp'' (List.not_mem_nil p)

/-- C10: the store-level `extend(num_particles)` returns immediately for a
non-positive count, leaving the store (every property buffer's length and
contents) unchanged and raising no error. -/
theorem extend_nonpositive_noop (s : DeviceHelper) (num : ℤ) (h : num ≤ 0) :
    s.extend num = some s := by
  unfold DeviceHelper.extend
  rw [if_pos h]

/-- Witness for C10 at a concrete store and count. -/
theorem extend_nonpositive_noop_witness :
    DeviceHelper.extend egStore (-1) = some egStore ∧ ((-1 : ℤ) ≤ 0) :=
  ⟨extend_nonpositive_noop egStore (-1) (by decide), by decide⟩

/-- C7: buffer-level `remove(indices)` raises exactly when
`len(indices) > length`, and store-level `remove_particles(indices)` (on a
well-formed store carrying the reserved `tag` property) raises exactly when
`len(indices)` exceeds the particle count; within bounds both proceed
without raising. -/
theorem remove_raises_iff_too_many :
    (∀ (a : DeviceArray) (indices : List ℕ),
        a.remove indices = none ↔ indices.length > a.length) ∧
    (∀ (s : DeviceHelper) (n : ℕ) (indices : List ℕ),
        s.Consistent n → "tag" ∈ s.properties →
        (s.remove_particles indices = none ↔ indices.length > n)) := by
  constructor
  · intro a indices
    unfold DeviceArray.remove
    by_cases h : indices.length > a.length
    · simp [h]
    · simp [h]
  · intro s n idx hc htag
    have hne : s.properties ≠ [] := by
      intro h
      rw [h] at htag
      exact (List.not_mem_nil "tag") htag
    have hn := DeviceHelper.get_number_eq hc hne
    by_cases hgt : idx.length > n
    · simp only [DeviceHelper.remove_particles, hn, if_pos hgt]
      simp [hgt]
    · simp only [DeviceHelper.remove_particles, hn, if_neg hgt]
      rw [DeviceHelper.align_eq s _ hc.1 hc.data_isSome]
      set A := if idx.length = 0 then ([] : List ℕ)
               else ((List.range n).filter (fun i => !(idx.contains i))).take
                      (n - idx.length) with hA
      show (if 0 < idx.length
            then ({ s with data := DeviceHelper.alignedData s A } :
                    DeviceHelper).align_particles
            else some { s with data := DeviceHelper.alignedData s A }) = none
          ↔ idx.length > n
      by_cases hz : 0 < idx.length
      · rw [if_pos hz]
        have hcs' : ({ s with data := DeviceHelper.alignedData s A } :
            DeviceHelper).Consistent A.length := by
          have := DeviceHelper.overProps_consistent s (fun _ a => a.align A) n A.length hc
            (fun p a _ _ _ _ => ⟨DeviceArray.align_length a A,
              le_of_eq ((DeviceArray.align_length a A).trans
                (DeviceArray.align_data_length a A).symm)⟩)
          exact this
        have hts' : (({ s with data := DeviceHelper.alignedData s A } :
            DeviceHelper).data "tag").isSome := by
          show (DeviceHelper.alignedData s A "tag").isSome
          unfold DeviceHelper.alignedData
          rw [if_pos htag]
          have hsome := hc.data_isSome "tag" htag
          cases hv : s.data "tag" with
          | none => rw [hv] at hsome; exact absurd hsome (by simp)
          | some t => rfl
        obtain ⟨s'', m, hs'', -⟩ := DeviceHelper.align_particles_some _ _ hcs' hts'
        rw [hs'']
        simp [hgt]
      · rw [if_neg hz]
        simp [hgt]

/-- Witness for C7 at concrete inputs: a length-1 buffer with two removal
indices (raises), and the concrete two-property store with two removal
indices against one particle (raises); the iff also certifies the in-bounds
non-raising direction. -/
theorem remove_raises_iff_too_many_witness :
    (DeviceArray.remove ⟨[some 5], 1⟩ [0, 1] = none ↔ (2 : ℕ) > 1) ∧
    (DeviceHelper.remove_particles egStore [0, 1] = none ↔ (2 : ℕ) > 1) := by
  constructor
  · exact remove_raises_iff_too_many.1 ⟨[some 5], 1⟩ [0, 1]
  · exact remove_raises_iff_too_many.2 egStore 1 [0, 1] egStore_consistent (by decide)

theorem foldl_range_if_zero (P : ℕ → Prop) [DecidablePred P] (n : ℕ)
    (h : ∀ i, i < n → ¬ P i) :
    (List.range n).foldl (fun acc i => if P i then i else acc) 0 = 0 := by
  induction n with
  | zero => rfl
  | succ m ih =>
    rw [List.range_succ, List.foldl_append]
    simp only [List.foldl_cons, List.foldl_nil]
    rw [if_neg (h m (Nat.lt_succ_self m)), ih (fun i hi => h i (Nat.lt_succ_of_lt hi))]

theorem foldl_range_if_unique (P : ℕ → Prop) [DecidablePred P] (n a : ℕ)
    (ha : P a) (han : a < n) (huniq : ∀ i, i < n → P i → i = a) :
    (List.range n).foldl (fun acc i => if P i then i else acc) 0 = a := by
  induction n with
  | zero => omega
  | succ m ih =>
    rw [List.range_succ, List.foldl_append]
    simp only [List.foldl_cons, List.foldl_nil]
    by_cases hm : m = a
    · subst hm
      rw [if_pos ha]
    · rw [if_neg (fun hPm => hm (huniq m (Nat.lt_succ_self m) hPm))]
      exact ih (by omega) (fun i hi hPi => huniq i (Nat.lt_succ_of_lt hi) hPi)

/-- `List.getD` through an append, past the left list. -/
theorem getD_append_right {α : Type} (l l' : List α) (d : α) (i : ℕ) (h : l.length ≤ i) :
    (l ++ l').getD i d = l'.getD (i - l.length) d := by
  rw [List.getD_eq_getElem?_getD, List.getD_eq_getElem?_getD, List.getElem?_append_right h]

theorem getD_replicate {α : Type} (d v : α) (c i : ℕ) (h : i < c) :
    (List.replicate c v).getD i d = v := by
  rw [List.getD_eq_getElem?_getD, List.getElem?_replicate, if_pos h]
  rfl

theorem getD_mem_of_lt {α : Type} (l : List α) (d : α) (i : ℕ) (h : i < l.length) :
    l.getD i d ∈ l := by
  rw [List.getD_eq_getElem?_getD, List.getElem?_eq_getElem h]
  exact List.getElem_mem h

theorem getD_map_some (l : List ℕ) (i : ℕ) (h : i < l.length) :
    (l.map some).getD i none = some (l.getD i 0) := by
  rw [List.getD_eq_getElem?_getD, List.getElem?_map, List.getD_eq_getElem?_getD,
    List.getElem?_eq_getElem h]
  rfl

/-- The transition scan yields 0 when no cell holds tag 0. -/
theorem numRealScan_of_no_zero (tags : List (Option ℕ))
    (h : ∀ i, i < tags.length → tags.getD i none ≠ some 0) : numRealScan tags = 0 := by
  unfold numRealScan
  apply foldl_range_if_zero
  intro i hi hP
  obtain ⟨h1, h2, h3⟩ := hP
  exact h (i - 1) (by omega) h3

/-- The transition scan yields 0 when every cell holds tag 0 (no transition). -/
theorem numRealScan_of_const_zero (tags : List (Option ℕ))
    (h : ∀ i, i < tags.length → tags.getD i none = some 0) : numRealScan tags = 0 := by
  unfold numRealScan
  apply foldl_range_if_zero
  intro i hi hP
  obtain ⟨h1, h2, h3⟩ := hP
  exact h2 ((h i hi).trans (h (i - 1) (by omega)).symm)

/-- The transition scan on a sorted tag array with a nonempty zero prefix and
a nonempty all-nonzero suffix finds exactly the boundary. -/
theorem numRealScan_prefix (c : ℕ) (M : List (Option ℕ)) (hc : 0 < c) (hM : 0 < M.length)
    (hMnz : ∀ x ∈ M, x ≠ some 0) :
    numRealScan (List.replicate c (some 0) ++ M) = c := by
  have hlen : (List.replicate c (some 0) ++ M).length = c + M.length := by simp
  have hz : ∀ i, i < c → (List.replicate c (some 0) ++ M).getD i none = some 0 := by
    intro i hi
    rw [getD_append_of_lt _ _ _ _ (by simpa using hi), getD_replicate _ _ _ _ hi]
  have hnz : ∀ i, c ≤ i → i < c + M.length →
      (List.replicate c (some 0) ++ M).getD i none ≠ some 0 := by
    intro i h1 h2
    rw [getD_append_right _ _ _ _ (by simpa using h1)]
    exact hMnz _ (getD_mem_of_lt M none _ (by simp; omega))
  unfold numRealScan
  rw [hlen]
  apply foldl_range_if_unique _ _ c
  · exact ⟨by omega, by rw [hz (c - 1) (by omega)]; exact hnz c (le_refl c) (by omega),
      hz (c - 1) (by omega)⟩
  · omega
  · intro i hi hP
    obtain ⟨h1, h2, h3⟩ := hP
    have hi1 : i - 1 < c := by
      by_contra hge
      exact (hnz (i - 1) (by omega) (by omega)) h3
    have hic : ¬ i < c := by
      intro hlt
      exact h2 ((hz i hlt).trans (h3.symm))
    omega

theorem DeviceArray.align_array (a : DeviceArray) (idx : List ℕ) :
    (a.align idx).array = idx.map (fun i => a.array.getD i none) := by
  show ((a.copy_values idx).take (a.copy_values idx).length) = _
  rw [List.take_length]
  rfl

/-- On an initialised tag column of 2-bit tags, the radix key of index `i`
is the tag value itself. -/
theorem radixKey_map_some (vals : List ℕ) (hlt : ∀ v ∈ vals, v < 4) (i : ℕ)
    (h : i < vals.length) : radixKey (vals.map some) i = vals.getD i 0 := by
  unfold radixKey
  rw [getD_map_some vals i h]
  exact Nat.mod_eq_of_lt (hlt _ (getD_mem_of_lt vals 0 i h))

/-- Gathering the tag column along one radix block yields a constant run of
that block's tag value. -/
theorem radix_block_gather (vals : List ℕ) (hlt : ∀ v ∈ vals, v < 4) (b : ℕ) :
    ((List.range vals.length).filter (fun i => radixKey (vals.map some) i == b)).map
        (fun i => (vals.map some).getD i none)
      = List.replicate
          ((List.range vals.length).filter
            (fun i => radixKey (vals.map some) i == b)).length
          (some b) := by
  rw [List.eq_replicate_iff]
  refine ⟨by rw [List.length_map], ?_⟩
  intro x hx
  obtain ⟨i, hi, rfl⟩ := List.mem_map.mp hx
  have hif := List.mem_filter.mp hi
  have hir : i < vals.length := List.mem_range.mp hif.1
  have hkey : radixKey (vals.map some) i = b := by simpa using hif.2
  rw [radixKey_map_some vals hlt i hir] at hkey
  rw [getD_map_some vals i hir, hkey]

theorem length_four_blocks (l : List ℕ) (g : ℕ → ℕ) (hg : ∀ i ∈ l, g i < 4) :
    (l.filter (fun i => g i == 0)).length + (l.filter (fun i => g i == 1)).length
      + (l.filter (fun i => g i == 2)).length + (l.filter (fun i => g i == 3)).length
      = l.length := by
  induction l with
  | nil => rfl
  | cons a t ih =>
    have ha : g a < 4 := hg a (List.mem_cons_self a t)
    have iht := ih (fun i hi => hg i (List.mem_cons_of_mem a hi))
    have hval : g a = 0 ∨ g a = 1 ∨ g a = 2 ∨ g a = 3 := by omega
    rcases hval with h | h | h | h <;> simp [List.filter_cons, h] <;> omega

/-- Size of one radix block of the tag column. -/
def blockLen (vals : List ℕ) (b : ℕ) : ℕ :=
  ((List.range vals.length).filter (fun i => radixKey (vals.map some) i == b)).length

theorem blockLen_sum (vals : List ℕ) :
    blockLen vals 0 + blockLen vals 1 + blockLen vals 2 + blockLen vals 3
      = vals.length := by
  unfold blockLen
  have := length_four_blocks (List.range vals.length)
    (fun i => radixKey (vals.map some) i)
    (fun i _ => Nat.mod_lt _ (by omega))
  rw [List.length_range] at this
  exact this

theorem radixSortedIndices_length (vals : List ℕ) :
    (radixSortedIndices (vals.map some) vals.length).length = vals.length := by
  unfold radixSortedIndices
  have := blockLen_sum vals
  unfold blockLen at this
  simp only [List.length_append]
  omega

/-- The gathered tag column after the radix sort: four constant runs. -/
theorem radix_gather_tags (vals : List ℕ) (hlt : ∀ v ∈ vals, v < 4) :
    (radixSortedIndices (vals.map some) vals.length).map
        (fun i => (vals.map some).getD i none)
      = List.replicate (blockLen vals 0) (some 0)
          ++ (List.replicate (blockLen vals 1) (some 1)
              ++ (List.replicate (blockLen vals 2) (some 2)
                  ++ List.replicate (blockLen vals 3) (some 3))) := by
  unfold radixSortedIndices blockLen
  rw [List.map_append, List.map_append, List.map_append,
    radix_block_gather vals hlt 0, radix_block_gather vals hlt 1,
    radix_block_gather vals hlt 2, radix_block_gather vals hlt 3]
  simp [List.append_assoc]

theorem mem_block (vals : List ℕ) (hlt : ∀ v ∈ vals, v < 4) (i : ℕ) (hi : i < vals.length) :
    i ∈ (List.range vals.length).filter
          (fun j => radixKey (vals.map some) j == vals.getD i 0) := by
  refine List.mem_filter.mpr ⟨List.mem_range.mpr hi, ?_⟩
  rw [radixKey_map_some vals hlt i hi]
  simp

theorem blockLen_zero_pos (vals : List ℕ) (hlt : ∀ v ∈ vals, v < 4)
    (hz : ∃ v ∈ vals, v = 0) : 0 < blockLen vals 0 := by
  obtain ⟨v, hv, hv0⟩ := hz
  obtain ⟨i, hi, hvi⟩ := List.mem_iff_getElem.mp hv
  have hgd : vals.getD i 0 = 0 := by rw [List.getD_eq_getElem vals 0 hi, hvi, hv0]
  have := mem_block vals hlt i hi
  rw [hgd] at this
  exact List.length_pos_of_mem this

theorem blockLen_tail_pos (vals : List ℕ) (hlt : ∀ v ∈ vals, v < 4)
    (hnz : ∃ v ∈ vals, v ≠ 0) :
    0 < blockLen vals 1 + blockLen vals 2 + blockLen vals 3 := by
  obtain ⟨v, hv, hv0⟩ := hnz
  obtain ⟨i, hi, hvi⟩ := List.mem_iff_getElem.mp hv
  have hgd : vals.getD i 0 = v := by rw [List.getD_eq_getElem vals 0 hi, hvi]
  have hmem := mem_block vals hlt i hi
  rw [hgd] at hmem
  have hv4 : v < 4 := hlt v hv
  have hval : v = 1 ∨ v = 2 ∨ v = 3 := by omega
  rcases hval with h | h | h <;> rw [h] at hmem <;>
    have := List.length_pos_of_mem hmem <;> unfold blockLen <;> omega

theorem blockLen_zero_of_all (vals : List ℕ) (hlt : ∀ v ∈ vals, v < 4) (b : ℕ)
    (hall : ∀ i, i < vals.length → vals.getD i 0 ≠ b) : blockLen vals b = 0 := by
  unfold blockLen
  rw [List.length_eq_zero]
  rw [List.filter_eq_nil_iff]
  intro i hi
  have hir := List.mem_range.mp hi
  rw [radixKey_map_some vals hlt i hir]
  simpa using hall i hir

/-- C1 (amended): after `align_particles()` on a store whose tags all lie in
the 2-bit radix key domain (`tag < 4`), the gathered tag column `L` has one
entry per particle; every `i < num_real_particles` has `L[i] = 0`; whenever
some tag is nonzero, every `i ≥ num_real_particles` has `L[i] ≠ 0`; and in
BOTH no-transition edge cases — all tags nonzero AND all tags zero —
`num_real_particles` is 0 (the zero-initialised scan output), NOT `n` in the
all-zero case as the claim states. -/
theorem align_particles_partition (s : DeviceHelper) (n : ℕ) (t : DeviceArray)
    (vals : List ℕ) (hc : s.Consistent n) (htp : "tag" ∈ s.properties)
    (ht : s.data "tag" = some t) (hvals : t.array = vals.map some)
    (hlt : ∀ v ∈ vals, v < 4) :
    ∃ s' L, s.align_particles = some s' ∧
      (s'.data "tag").map DeviceArray.array = some L ∧
      L.length = n ∧
      (∀ i, i < s'.num_real_particles → L.getD i none = some 0) ∧
      ((∃ v ∈ vals, v ≠ 0) →
        ∀ i, s'.num_real_particles ≤ i → i < n → L.getD i none ≠ some 0) ∧
      ((∀ v ∈ vals, v = 0) → s'.num_real_particles = 0) ∧
      ((∀ v ∈ vals, v ≠ 0) → s'.num_real_particles = 0) := by
  obtain ⟨a, ha, hlen_a, hwf_a⟩ := hc.2 "tag" htp
  rw [ht] at ha
  have hta : t = a := Option.some.inj ha
  have htlen : t.length = n := by rw [hta]; exact hlen_a
  have htwf : t.length ≤ t.data.length := by rw [hta]; exact hwf_a
  have harr : t.array.length = t.length := DeviceArray.array_length t htwf
  have hvlen : vals.length = n := by
    rw [hvals, List.length_map] at harr
    omega
  have hne : s.properties ≠ [] := fun h => (List.not_mem_nil "tag") (h ▸ htp)
  have hn := DeviceHelper.get_number_eq hc hne
  have heq := DeviceHelper.align_particles_eq s n n t hc ht hn
  set L : List (Option ℕ) :=
    List.replicate (blockLen vals 0) (some 0)
      ++ (List.replicate (blockLen vals 1) (some 1)
          ++ (List.replicate (blockLen vals 2) (some 2)
              ++ List.replicate (blockLen vals 3) (some 3))) with hL
  have hgather : (radixSortedIndices t.array n).map (fun i => t.array.getD i none) = L := by
    rw [hvals, ← hvlen]
    exact radix_gather_tags vals hlt
  have htag' : ((DeviceHelper.alignedStore s t n).data "tag").map DeviceArray.array
      = some L := by
    show (DeviceHelper.alignedData s (radixSortedIndices t.array n) "tag").map
        DeviceArray.array = some L
    unfold DeviceHelper.alignedData
    rw [if_pos htp, ht]
    show some ((t.align (radixSortedIndices t.array n)).array) = some L
    rw [DeviceArray.align_array, hgather]
  have hnum : (DeviceHelper.alignedStore s t n).num_real_particles = numRealScan L := by
    show numRealScan ((if "tag" ∈ s.properties
        then t.align (radixSortedIndices t.array n) else t).array) = _
    rw [if_pos htp, DeviceArray.align_array, hgather]
  have hsum := blockLen_sum vals
  have hLlen : L.length = n := by
    rw [hL]
    simp only [List.length_append, List.length_replicate]
    omega
  have hLz : ∀ i, i < blockLen vals 0 → L.getD i none = some 0 := by
    intro i hi
    rw [hL, getD_append_of_lt _ _ _ _ (by simpa using hi), getD_replicate _ _ _ _ hi]
  have hMnz : ∀ x ∈ (List.replicate (blockLen vals 1) (some 1)
      ++ (List.replicate (blockLen vals 2) (some 2)
          ++ List.replicate (blockLen vals 3) (some 3))), x ≠ some 0 := by
    intro x hx
    rcases List.mem_append.mp hx with h | h
    · rw [(List.mem_replicate.mp h).2]
      simp
    · rcases List.mem_append.mp h with h' | h'
      · rw [(List.mem_replicate.mp h').2]
        simp
      · rw [(List.mem_replicate.mp h').2]
        simp
  have hLnz : ∀ i, blockLen vals 0 ≤ i → i < n → L.getD i none ≠ some 0 := by
    intro i h1 h2
    rw [hL, getD_append_right _ _ _ _ (by simpa using h1)]
    apply hMnz
    apply getD_mem_of_lt
    simp only [List.length_append, List.length_replicate, List.length_replicate]
    omega
  refine ⟨DeviceHelper.alignedStore s t n, L, heq, htag', hLlen, ?_, ?_, ?_, ?_⟩
  · -- prefix of zeros below num_real_particles
    intro i hi
    rw [hnum] at hi
    by_cases hex0 : ∃ v ∈ vals, v = 0
    · by_cases hexnz : ∃ v ∈ vals, v ≠ 0
      · have hscan : numRealScan L = blockLen vals 0 := by
          rw [hL]
          exact numRealScan_prefix _ _ (blockLen_zero_pos vals hlt hex0)
            (by simp only [List.length_append, List.length_replicate]
                have := blockLen_tail_pos vals hlt hexnz
                omega) hMnz
        rw [hscan] at hi
        exact hLz i hi
      · push_neg at hexnz
        have hscan : numRealScan L = 0 := by
          apply numRealScan_of_const_zero
          intro j hj
          apply hLz
          have hb1 : blockLen vals 1 = 0 := blockLen_zero_of_all vals hlt 1
            (fun m hm => by have := hexnz _ (getD_mem_of_lt vals 0 m hm); omega)
          have hb2 : blockLen vals 2 = 0 := blockLen_zero_of_all vals hlt 2
            (fun m hm => by have := hexnz _ (getD_mem_of_lt vals 0 m hm); omega)
          have hb3 : blockLen vals 3 = 0 := blockLen_zero_of_all vals hlt 3
            (fun m hm => by have := hexnz _ (getD_mem_of_lt vals 0 m hm); omega)
          rw [hLlen] at hj
          omega
        rw [hscan] at hi
        omega
    · push_neg at hex0
      have hb0 : blockLen vals 0 = 0 := blockLen_zero_of_all vals hlt 0
        (fun m hm => hex0 _ (getD_mem_of_lt vals 0 m hm))
      have hscan : numRealScan L = 0 := by
        apply numRealScan_of_no_zero
        intro j hj
        rw [hLlen] at hj
        exact hLnz j (by omega) hj
      rw [hscan] at hi
      omega
  · -- past num_real_particles, all nonzero (when some tag is nonzero)
    intro hexnz i h1 h2
    rw [hnum] at h1
    by_cases hex0 : ∃ v ∈ vals, v = 0
    · have hscan : numRealScan L = blockLen vals 0 := by
        rw [hL]
        exact numRealScan_prefix _ _ (blockLen_zero_pos vals hlt hex0)
          (by simp only [List.length_append, List.length_replicate]
              have := blockLen_tail_pos vals hlt hexnz
              omega) hMnz
      rw [hscan] at h1
      exact hLnz i h1 h2
    · push_neg at hex0
      have hb0 : blockLen vals 0 = 0 := blockLen_zero_of_all vals hlt 0
        (fun m hm => hex0 _ (getD_mem_of_lt vals 0 m hm))
      exact hLnz i (by omega) h2
  · -- all tags zero: num_real_particles = 0, not n
    intro hall
    rw [hnum]
    apply numRealScan_of_const_zero
    intro j hj
    have hb1 : blockLen vals 1 = 0 := blockLen_zero_of_all vals hlt 1
      (fun m hm => by have := hall _ (getD_mem_of_lt vals 0 m hm); omega)
    have hb2 : blockLen vals 2 = 0 := blockLen_zero_of_all vals hlt 2
      (fun m hm => by have := hall _ (getD_mem_of_lt vals 0 m hm); omega)
    have hb3 : blockLen vals 3 = 0 := blockLen_zero_of_all vals hlt 3
      (fun m hm => by have := hall _ (getD_mem_of_lt vals 0 m hm); omega)
    apply hLz
    rw [hLlen] at hj
    omega
  · -- all tags nonzero: num_real_particles = 0
    intro hallnz
    rw [hnum]
    have hb0 : blockLen vals 0 = 0 := blockLen_zero_of_all vals hlt 0
      (fun m hm => hallnz _ (getD_mem_of_lt vals 0 m hm))
    apply numRealScan_of_no_zero
    intro j hj
    rw [hLlen] at hj
    exact hLnz j (by omega) hj

/-- A store of one particle whose tag is 0 (all tags zero). -/
def allZeroTagStore : DeviceHelper :=
  { data := fun q => if q = "tag" then some ⟨[some 0], 1⟩ else none,
    properties := ["tag"],
    constants := [],
    default_values := fun _ => 0,
    num_real_particles := 0 }

/-- C1 counterexample: on a 1-particle store whose only tag is 0, the claim
demands `num_real_particles = n = 1` (and `tag[i] ≠ 0` for `i ≥ it`), but the
transition scan finds no transition and leaves the zero-initialised output:
`num_real_particles = 0`. -/
theorem align_particles_all_zero_gives_zero :
    (allZeroTagStore.data "tag").map DeviceArray.array = some [some 0] ∧
    (DeviceHelper.align_particles allZeroTagStore).map
        DeviceHelper.num_real_particles = some 0 ∧
    (DeviceHelper.align_particles allZeroTagStore).map
        DeviceHelper.num_real_particles ≠ some 1 := by
  exact ⟨by decide, by decide, by decide⟩

/-- A store of two particles with tags `[1, 0]` (one ghost, one real). -/
def mixedTagStore : DeviceHelper :=
  { data := fun q => if q = "tag" then some ⟨[some 1, some 0], 2⟩ else none,
    properties := ["tag"],
    constants := [],
    default_values := fun _ => 0,
    num_real_particles := 0 }

/-- Witness for the amended C1 theorem on the concrete mixed-tag store. -/
theorem align_particles_partition_witness :
    ∃ s' L, mixedTagStore.align_particles = some s' ∧
      (s'.data "tag").map DeviceArray.array = some L ∧
      L.length = 2 ∧
      (∀ i, i < s'.num_real_particles → L.getD i none = some 0) ∧
      ((∃ v ∈ [1, 0], v ≠ 0) →
        ∀ i, s'.num_real_particles ≤ i → i < 2 → L.getD i none ≠ some 0) ∧
      ((∀ v ∈ [1, 0], v = 0) → s'.num_real_particles = 0) ∧
      ((∀ v ∈ [1, 0], v ≠ 0) → s'.num_real_particles = 0) := by
  have hcons : mixedTagStore.Consistent 2 := by
    constructor
    · decide
    · intro p hp
      rcases List.mem_cons.mp hp with rfl | hp'
      · exact ⟨⟨[some 1, some 0], 2⟩, rfl, rfl, by decide⟩
      · exact absurd hp' (List.not_mem_nil p)
  exact align_particles_partition mixedTagStore 2 ⟨[some 1, some 0], 2⟩ [1, 0]
    hcons (by decide) rfl rfl (by decide)

/-- A 1-particle store with properties `tag` and `y` (with `y` defaulting
to 3), used as the merge source. -/
def otherStoreC4 : DeviceHelper :=
  { data := fun q => if q = "tag" then some ⟨[some 0], 1⟩
            else if q = "y" then some ⟨[some 3], 1⟩ else none,
    properties := ["tag", "y"],
    constants := [],
    default_values := fun q => if q = "y" then 3 else 0,
    num_real_particles := 0 }

/-- C4: merging a store that carries a property `y` absent from self should
create a default-filled buffer for `y` in self — but the code first reads
`self._data[prop_name].dtype`, and `prop_name` is exactly the property NOT
present in self, so the call dies with a `KeyError` (contradicting the
adjacent comment "meaning this property is not there in self").  Evaluated
at a concrete pair of stores. -/
theorem append_parray_new_prop_keyerror :
    DeviceHelper.append_parray allZeroTagStore otherStoreC4 = none := by rfl

theorem map_getD_range {α : Type} (l : List α) (d : α) :
    (List.range l.length).map (fun i => l.getD i d) = l := by
  apply List.ext_getElem
  · simp
  · intro i h1 h2
    simp only [List.getElem_map, List.getElem_range]
    exact List.getD_eq_getElem l d h2

namespace DeviceArray

/-- `extend` IS correct when the buffer has no spare capacity: the
allocation-relative write then coincides with the logical tail. -/
theorem extend_tight_array (a : DeviceArray) (vs : List ℕ)
    (htight : a.data.length = a.length) (hvs : vs ≠ []) :
    (a.extend vs).array = a.array ++ vs.map some := by
  have hk : 0 < vs.length := List.length_pos.mpr hvs
  have hcond : a.length + vs.length > a.alloc := by
    show a.length + vs.length > a.data.length
    omega
  show ((a.extend vs).data.take (a.extend vs).length) = _
  rw [extend_length]
  unfold extend
  rw [if_pos hcond]
  show ((a.reserve (a.length + vs.length)).data.take
      ((a.reserve (a.length + vs.length)).data.length - vs.length)
      ++ vs.map some).take (a.length + vs.length) = _
  rw [reserve_data_length]
  have hmax : max a.data.length (a.length + vs.length) = a.length + vs.length := by omega
  rw [hmax]
  have hres : (a.reserve (a.length + vs.length)).data
      = a.data ++ List.replicate (a.length + vs.length - a.alloc) none := by
    unfold reserve
    rw [if_pos hcond]
  rw [hres]
  have htk : (a.data ++ List.replicate (a.length + vs.length - a.alloc) none).take
      (a.length + vs.length - vs.length) = a.data := by
    have : a.length + vs.length - vs.length = a.data.length := by omega
    rw [this]
    exact List.take_left a.data _
  rw [htk]
  have hlen2 : a.length + vs.length = (a.data ++ vs.map some).length := by
    simp
    omega
  rw [hlen2, List.take_length]
  unfold array
  rw [← htight, List.take_length]

/-- `resize` to `k + n` then default-fill of the tail `[n, k+n)` appends `k`
default cells to the logical view. -/
theorem resize_sliceFill_array (a : DeviceArray) (n k v : ℕ)
    (hlen : a.length = n) (hwf : a.length ≤ a.data.length) :
    ((a.resize (k + n)).sliceFill n v).array = a.array ++ List.replicate k (some v) := by
  have hrl : (a.resize (k + n)).length = k + n := rfl
  have hrd : (a.resize (k + n)).data.length = max a.data.length (k + n) :=
    resize_data_length a (k + n)
  have hmin : min (a.resize (k + n)).length (a.resize (k + n)).data.length = k + n := by
    rw [hrl, hrd]
    omega
  have htkn : (a.resize (k + n)).data.take n = a.data.take n := by
    show (a.reserve (k + n)).data.take n = a.data.take n
    unfold reserve
    split
    · exact List.take_append_of_le_length (by omega)
    · rfl
  show (listFillFrom ((a.resize (k + n)).data.take
          (min (a.resize (k + n)).length (a.resize (k + n)).data.length)) n (some v)
        ++ (a.resize (k + n)).data.drop
          (min (a.resize (k + n)).length (a.resize (k + n)).data.length)).take
      (a.resize (k + n)).length = _
  rw [hmin, hrl]
  unfold listFillFrom
  rw [List.take_take, List.length_take]
  have h1 : min n (k + n) = n := by omega
  have h2 : min (k + n) (a.resize (k + n)).data.length = k + n := by rw [hrd]; omega
  rw [h1, h2]
  have h3 : k + n - n = k := by omega
  rw [h3, htkn]
  have h4 : a.data.take n ++ List.replicate k (some v)
      = (a.data.take n ++ List.replicate k (some v)) := rfl
  rw [List.append_assoc]
  have hlen5 : (a.data.take n).length = n := by
    rw [List.length_take]
    omega
  have h6 : k + n = ((a.data.take n) ++ List.replicate k (some v)).length := by
    simp [hlen5]
    omega
  rw [← List.append_assoc, h6, List.take_left]
  unfold array
  rw [hlen]

end DeviceArray

/-- On an all-zero tag column the radix sort of `[0, m)` is the identity
permutation. -/
theorem radixSortedIndices_of_zero_tags (m : ℕ) :
    radixSortedIndices (List.replicate m (some 0)) m = List.range m := by
  have hkey : ∀ i ∈ List.range m, radixKey (List.replicate m (some 0)) i = 0 := by
    intro i hi
    unfold radixKey
    rw [getD_replicate _ _ _ _ (by simpa using List.mem_range.mp hi)]
    rfl
  unfold radixSortedIndices
  rw [List.filter_eq_self.mpr (fun i hi => by simp [hkey i hi]),
    List.filter_eq_nil_iff.mpr (fun i hi => by simp [hkey i hi]),
    List.filter_eq_nil_iff.mpr (fun i hi => by simp [hkey i hi]),
    List.filter_eq_nil_iff.mpr (fun i hi => by simp [hkey i hi])]
  simp

/-- `align_particles` on a consistent store whose tags are all zero succeeds,
recomputes `num_real_particles = 0` and leaves every buffer's logical
contents unchanged (the sort is the identity permutation). -/
theorem align_particles_id_of_zero_tags (s : DeviceHelper) (m : ℕ) (t : DeviceArray)
    (hc : s.Consistent m) (htp : "tag" ∈ s.properties)
    (ht : s.data "tag" = some t) (harr : t.array = List.replicate m (some 0)) :
    ∃ s2, s.align_particles = some s2 ∧ s2.num_real_particles = 0 ∧
      s2.properties = s.properties ∧ s2.constants = s.constants ∧
      (∀ q, (s2.data q).map DeviceArray.array = (s.data q).map DeviceArray.array) := by
  have hne : s.properties ≠ [] := fun h => (List.not_mem_nil "tag") (h ▸ htp)
  have hn := DeviceHelper.get_number_eq hc hne
  have heq := DeviceHelper.align_particles_eq s m m t hc ht hn
  have hsorted : radixSortedIndices t.array m = List.range m := by
    rw [harr]
    exact radixSortedIndices_of_zero_tags m
  have hpreserve : ∀ (a : DeviceArray), a.array.length = m →
      (a.align (radixSortedIndices t.array m)).array = a.array := by
    intro a hal
    rw [DeviceArray.align_array, hsorted, ← hal]
    exact map_getD_range a.array none
  refine ⟨DeviceHelper.alignedStore s t m, heq, ?_, rfl, rfl, ?_⟩
  · show numRealScan ((if "tag" ∈ s.properties
        then t.align (radixSortedIndices t.array m) else t).array) = 0
    rw [if_pos htp]
    have htl : t.array.length = m := by rw [harr]; simp
    rw [hpreserve t htl, harr]
    apply numRealScan_of_const_zero
    intro i hi
    simp only [List.length_replicate] at hi
    exact getD_replicate _ _ _ _ hi
  · intro q
    show (DeviceHelper.alignedData s (radixSortedIndices t.array m) q).map
        DeviceArray.array = _
    unfold DeviceHelper.alignedData
    by_cases hq : q ∈ s.properties
    · rw [if_pos hq]
      obtain ⟨a, ha, hlen, hwf⟩ := hc.2 q hq
      rw [ha]
      show some ((a.align (radixSortedIndices t.array m)).array) = some a.array
      rw [hpreserve a (by rw [DeviceArray.array_length a hwf]; exact hlen)]
    · rw [if_neg hq]

theorem lookupStr_mem {α : Type} (l : List (String × α)) (p : String) (v : α)
    (h : lookupStr l p = some v) : (p, v) ∈ l := by
  induction l with
  | nil => exact absurd h (by simp [lookupStr])
  | cons pr t ih =>
    obtain ⟨a, b⟩ := pr
    unfold lookupStr at h
    split at h
    · rename_i heq
      injection h with h
      subst heq h
      exact List.mem_cons_self _ _
    · exact List.mem_cons_of_mem _ (ih h)

/-- C5 (amended): an `add_particles` batch of size `k > 0` naming only
registered properties behaves as the claim states PROVIDED (a) every
particle, old and new, is real — all tags 0, `tag` not supplied, `tag`
default 0 — so the closing `align_particles()` is the identity permutation,
and (b) each supplied property's buffer is tight (no spare capacity), so
`extend`'s allocation-relative write lands on the logical tail.  Then every
absent property grows by `k` with a default-filled tail and every supplied
property has its `k` values appended. -/
theorem add_particles_batch (s : DeviceHelper) (n k : ℕ)
    (input : List (String × List ℕ)) (t : DeviceArray)
    (hc : s.Consistent n) (htp : "tag" ∈ s.properties)
    (ht : s.data "tag" = some t) (htags : t.array = List.replicate n (some 0))
    (hdef : s.default_values "tag" = 0)
    (hin : input ≠ []) (hk : 0 < k)
    (hlens : ∀ pr ∈ input, pr.2.length = k)
    (hnames : ∀ pr ∈ input, pr.1 ∈ s.properties)
    (htagnot : lookupStr input "tag" = none)
    (htight : ∀ p vs, lookupStr input p = some vs →
      ∃ a, s.data p = some a ∧ a.data.length = a.length) :
    ∃ s', s.add_particles input = some s' ∧
      (∀ p vs, p ∈ s.properties → lookupStr input p = some vs →
        (s'.data p).map DeviceArray.array
          = (s.data p).map (fun a => a.array ++ vs.map some)) ∧
      (∀ p, p ∈ s.properties → lookupStr input p = none →
        (s'.data p).map DeviceArray.array
          = (s.data p).map (fun a => a.array
              ++ List.replicate k (some (s.default_values p)))) := by
  cases input with
  | nil => exact absurd rfl hin
  | cons pr₀ rest =>
  obtain ⟨p₀, vs₀⟩ := pr₀
  have hvs₀ : vs₀.length = k := hlens (p₀, vs₀) (List.mem_cons_self _ _)
  have hne : s.properties ≠ [] := fun h => (List.not_mem_nil "tag") (h ▸ htp)
  have hn := DeviceHelper.get_number_eq hc hne
  have hall : ((p₀, vs₀) :: rest).all (fun pr => decide (pr.1 ∈ s.properties)) = true :=
    List.all_eq_true.mpr (fun pr hpr => decide_eq_true (hnames pr hpr))
  set f : String → DeviceArray → DeviceArray := fun p a =>
    match lookupStr ((p₀, vs₀) :: rest) p with
    | some vs => a.extend vs
    | none => (a.resize (vs₀.length + n)).sliceFill n (s.default_values p) with hf
  have hflen : ∀ p a, p ∈ s.properties → s.data p = some a → a.length = n →
      a.length ≤ a.data.length →
      (f p a).length = n + k ∧ (f p a).length ≤ (f p a).data.length := by
    intro p a hp ha hlen hwf
    cases hl : lookupStr ((p₀, vs₀) :: rest) p with
    | some vs =>
      have hfa : f p a = a.extend vs := by simp only [hf]; rw [hl]
      constructor
      · rw [hfa, DeviceArray.extend_length, hlen,
          hlens (p, vs) (lookupStr_mem _ _ _ hl)]
      · rw [hfa]
        exact DeviceArray.extend_WF a vs
    | none =>
      have hfa : f p a = (a.resize (vs₀.length + n)).sliceFill n (s.default_values p) := by
        simp only [hf]; rw [hl]
      constructor
      · rw [hfa, DeviceArray.sliceFill_length, DeviceArray.resize_length]
        omega
      · rw [hfa, DeviceArray.sliceFill_length, DeviceArray.sliceFill_data_length]
        exact DeviceArray.resize_WF a _
  have hover := overProps_eq s f hc.1 hc.data_isSome
  set s₁ : DeviceHelper := { s with data := fun q =>
    if q ∈ s.properties then (s.data q).map (f q) else s.data q } with hs₁
  have hcons₁ : s₁.Consistent (n + k) :=
    DeviceHelper.overProps_consistent s f n (n + k) hc hflen
  have ht₁ : s₁.data "tag" = some (f "tag" t) := by
    show (if "tag" ∈ s.properties then (s.data "tag").map (f "tag") else s.data "tag")
        = some (f "tag" t)
    rw [if_pos htp, ht]
    rfl
  obtain ⟨ta, hta, htlen, htwf⟩ := hc.2 "tag" htp
  rw [ht] at hta
  have htaeq : t = ta := Option.some.inj hta
  have htagarr : (f "tag" t).array = List.replicate (n + k) (some 0) := by
    have hfa : f "tag" t = (t.resize (vs₀.length + n)).sliceFill n
        (s.default_values "tag") := by
      simp only [hf]; rw [htagnot]
    rw [hfa, DeviceArray.resize_sliceFill_array t n vs₀.length _
      (by rw [htaeq]; exact htlen) (by rw [htaeq]; exact htwf)]
    rw [htags, hdef, hvs₀, ← List.replicate_add]
  obtain ⟨s₂, halign, hnum₂, hprops₂, hconsts₂, hdata₂⟩ :=
    align_particles_id_of_zero_tags s₁ (n + k) (f "tag" t) hcons₁ htp ht₁ htagarr
  refine ⟨s₂, ?_, ?_, ?_⟩
  · show DeviceHelper.add_particles s ((p₀, vs₀) :: rest) = some s₂
    have step1 : DeviceHelper.add_particles s ((p₀, vs₀) :: rest)
        = match s.overProps f with
          | none => none
          | some s' => if 0 < vs₀.length then s'.align_particles else some s' := by
      unfold DeviceHelper.add_particles
      show (if (((p₀, vs₀) :: rest).all fun pr => decide (pr.1 ∈ s.properties)) = true then
            match s.get_number_of_particles with
            | none => none
            | some old =>
              match s.overProps fun p a =>
                  match lookupStr ((p₀, vs₀) :: rest) p with
                  | some vs => a.extend vs
                  | none => (a.resize (vs₀.length + old)).sliceFill old
                      (s.default_values p) with
              | none => none
              | some s' => if 0 < vs₀.length then s'.align_particles else some s'
          else none) = _
      rw [if_pos hall, hn]
    rw [step1, hover]
    show (if 0 < vs₀.length then s₁.align_particles else some s₁) = some s₂
    rw [if_pos (by omega)]
    exact halign
  · intro p vs hp hl
    rw [hdata₂ p]
    show ((if p ∈ s.properties then (s.data p).map (f p) else s.data p)).map
        DeviceArray.array = _
    rw [if_pos hp]
    obtain ⟨a, ha, hlen, hwf⟩ := hc.2 p hp
    obtain ⟨a', ha', htight'⟩ := htight p vs hl
    rw [ha] at ha'
    have haeq : a = a' := Option.some.inj ha'
    rw [ha]
    have hfa : f p a = a.extend vs := by simp only [hf]; rw [hl]
    have hvs : vs.length = k := hlens (p, vs) (lookupStr_mem _ _ _ hl)
    have hvsne : vs ≠ [] := by
      intro hnil
      rw [hnil] at hvs
      simp at hvs
      omega
    show some ((f p a).array) = some (a.array ++ vs.map some)
    rw [hfa, DeviceArray.extend_tight_array a vs (by rw [haeq]; exact htight') hvsne]
  · intro p hp hl
    rw [hdata₂ p]
    show ((if p ∈ s.properties then (s.data p).map (f p) else s.data p)).map
        DeviceArray.array = _
    rw [if_pos hp]
    obtain ⟨a, ha, hlen, hwf⟩ := hc.2 p hp
    rw [ha]
    have hfa : f p a = (a.resize (vs₀.length + n)).sliceFill n (s.default_values p) := by
      simp only [hf]; rw [hl]
    show some ((f p a).array) = some (a.array ++ List.replicate k (some (s.default_values p)))
    rw [hfa, DeviceArray.resize_sliceFill_array a n vs₀.length _ hlen hwf, hvs₀]

/-- A 1-particle store with a nonzero tag (a ghost particle) and a tight
property `x`. -/
def c5Store : DeviceHelper :=
  { data := fun q => if q = "tag" then some ⟨[some 1], 1⟩
            else if q = "x" then some ⟨[some 7], 1⟩ else none,
    properties := ["tag", "x"],
    constants := [],
    default_values := fun _ => 0,
    num_real_particles := 0 }

/-- C5 counterexample: on a store whose existing particle has tag 1,
`add_particles(x=[9])` appends 9 — and then the closing `align_particles()`
sorts the new real particle (tag 0 by default) in FRONT of the ghost, so the
final `x` is `[9, 7]`, not the claimed `old ++ [9] = [7, 9]`: the supplied
values do not end up as the tail. -/
theorem add_particles_permutes_appended_values :
    ((DeviceHelper.add_particles c5Store [("x", [9])]).bind
        (fun s' => (s'.data "x").map DeviceArray.array)) = some [some 9, some 7] ∧
    some [some 9, some 7] ≠ ((c5Store.data "x").map
        (fun a => DeviceArray.array a ++ [9].map some)) := by
  exact ⟨by rfl, by decide⟩

/-- A 1-real-particle store with tight buffers `tag`, `x`, `y`
(`y` defaulting to 4). -/
def c5GoodStore : DeviceHelper :=
  { data := fun q => if q = "tag" then some ⟨[some 0], 1⟩
            else if q = "x" then some ⟨[some 7], 1⟩
            else if q = "y" then some ⟨[some 8], 1⟩ else none,
    properties := ["tag", "x", "y"],
    constants := [],
    default_values := fun q => if q = "y" then 4 else 0,
    num_real_particles := 1 }

/-- Witness for the amended C5 theorem: scenario B in miniature on the
concrete store (supplied `x` gains `[9]`, absent `y` grows by its default). -/
theorem add_particles_batch_witness :
    ∃ s', DeviceHelper.add_particles c5GoodStore [("x", [9])] = some s' ∧
      (∀ p vs, p ∈ c5GoodStore.properties → lookupStr [("x", [9])] p = some vs →
        (s'.data p).map DeviceArray.array
          = (c5GoodStore.data p).map (fun a => a.array ++ vs.map some)) ∧
      (∀ p, p ∈ c5GoodStore.properties → lookupStr [("x", [9])] p = none →
        (s'.data p).map DeviceArray.array
          = (c5GoodStore.data p).map (fun a => a.array
              ++ List.replicate 1 (some (c5GoodStore.default_values p)))) := by
  have hc : c5GoodStore.Consistent 1 := by
    constructor
    · decide
    · intro p hp
      rcases List.mem_cons.mp hp with rfl | hp'
      · exact ⟨⟨[some 0], 1⟩, rfl, rfl, by decide⟩
      · rcases List.mem_cons.mp hp' with rfl | hp''
        · exact ⟨⟨[some 7], 1⟩, rfl, rfl, by decide⟩
        · rcases List.mem_cons.mp hp'' with rfl | hp3
          · exact ⟨⟨[some 8], 1⟩, rfl, rfl, by decide⟩
          · exact absurd hp3 (List.not_mem_nil p)
  have hlens : ∀ pr ∈ [("x", [9])], pr.2.length = 1 := by
    intro pr hpr
    rcases List.mem_cons.mp hpr with rfl | h
    · rfl
    · exact absurd h (List.not_mem_nil pr)
  have hnames : ∀ pr ∈ [("x", [9])], pr.1 ∈ c5GoodStore.properties := by
    intro pr hpr
    rcases List.mem_cons.mp hpr with rfl | h
    · decide
    · exact absurd h (List.not_mem_nil pr)
  have htight : ∀ p vs, lookupStr [("x", [9])] p = some vs →
      ∃ a, c5GoodStore.data p = some a ∧ a.data.length = a.length := by
    intro p vs h
    unfold lookupStr at h
    split at h
    · rename_i heq
      subst heq
      exact ⟨⟨[some 7], 1⟩, rfl, rfl⟩
    · exact absurd h (by simp [lookupStr])
  exact add_particles_batch c5GoodStore 1 1 [("x", [9])] ⟨[some 0], 1⟩
    hc (by decide) rfl rfl rfl (by decide) (by decide) hlens hnames rfl htight

theorem extract_fold_eq (s : DeviceHelper) (indices : List ℕ) (l : List String)
    (r₀ : DeviceHelper) (hnd : l.Nodup)
    (hsome : ∀ p ∈ l, (s.data p).isSome)
    (hdisj : ∀ p ∈ l, p ∉ r₀.properties) :
    ∃ r1, l.foldlM (fun r pname =>
        match s.data pname with
        | none => none
        | some srcArr =>
          let dst : DeviceArray := ⟨srcArr.copy_values indices, indices.length⟩
          let r' := { r with default_values :=
            fun q => if q = pname then s.default_values pname else r.default_values q }
          some (r'.update_prop pname dst)) r₀ = some r1 ∧
      r1.constants = r₀.constants ∧
      r1.properties = r₀.properties ++ l ∧
      (∀ q, q ∉ l → r1.data q = r₀.data q) ∧
      (∀ q, q ∈ l → ∃ src, s.data q = some src ∧
        r1.data q = some ⟨src.copy_values indices, indices.length⟩) := by
  induction l generalizing r₀ with
  | nil =>
    refine ⟨r₀, rfl, rfl, by simp, fun q _ => rfl, fun q hq => absurd hq (List.not_mem_nil q)⟩
  | cons p l' ih =>
    have hsp := hsome p (List.mem_cons_self p l')
    have hpl' : p ∉ l' := (List.nodup_cons.mp hnd).1
    have hnd' : l'.Nodup := (List.nodup_cons.mp hnd).2
    have hpr₀ : p ∉ r₀.properties := hdisj p (List.mem_cons_self p l')
    cases hpa : s.data p with
    | none => rw [hpa] at hsp; exact absurd hsp (by simp)
    | some src =>
      set st1 : DeviceHelper :=
        ({ r₀ with default_values :=
            fun q => if q = p then s.default_values p else r₀.default_values q
          } : DeviceHelper).update_prop p
          ⟨src.copy_values indices, indices.length⟩ with hst1
      have hst1p : st1.properties = r₀.properties ++ [p] := by
        show (if p ∈ r₀.properties then r₀.properties else r₀.properties ++ [p]) = _
        rw [if_neg hpr₀]
      have hst1c : st1.constants = r₀.constants := rfl
      have hst1d : ∀ q, q ≠ p → st1.data q = r₀.data q := by
        intro q hq
        show dictSet r₀.data p _ q = r₀.data q
        exact dictSet_ne _ _ _ _ hq
      have hst1dp : st1.data p = some ⟨src.copy_values indices, indices.length⟩ := by
        show dictSet r₀.data p _ p = _
        exact dictSet_self _ _ _
      obtain ⟨r1, hr1, hr1c, hr1p, hr1d, hr1e⟩ := ih st1 hnd'
        (fun q hq => hsome q (List.mem_cons_of_mem p hq))
        (fun q hq => by
          rw [hst1p]
          intro hmem
          rcases List.mem_append.mp hmem with h | h
          · exact hdisj q (List.mem_cons_of_mem p hq) h
          · rcases List.mem_cons.mp h with rfl | h'
            · exact hpl' hq
            · exact absurd h' (List.not_mem_nil q))
      refine ⟨r1, ?_, ?_, ?_, ?_, ?_⟩
      · rw [List.foldlM_cons, hpa]
        exact hr1
      · rw [hr1c, hst1c]
      · rw [hr1p, hst1p, List.append_assoc, List.singleton_append]
      · intro q hq
        have hq' : q ∉ l' := fun h => hq (List.mem_cons_of_mem p h)
        have hqp : q ≠ p := fun h => hq (h ▸ List.mem_cons_self p l')
        rw [hr1d q hq', hst1d q hqp]
      · intro q hq
        rcases List.mem_cons.mp hq with rfl | hq'
        · exact ⟨src, hpa, by rw [hr1d q hpl', hst1dp]⟩
        · exact hr1e q hq'

theorem const_fold_eq (s : DeviceHelper) (l : List String) (r₀ : DeviceHelper)
    (hnd : l.Nodup)
    (hsome : ∀ c ∈ l, (s.data c).isSome)
    (hdisj : ∀ c ∈ l, c ∉ r₀.constants) :
    ∃ r2, l.foldlM (fun r c =>
        match s.data c with
        | none => none
        | some a => some (r.update_const c a.copy)) r₀ = some r2 ∧
      r2.properties = r₀.properties ∧
      r2.constants = r₀.constants ++ l ∧
      (∀ q, q ∉ l → r2.data q = r₀.data q) ∧
      (∀ c, c ∈ l → ∃ a, s.data c = some a ∧ r2.data c = some a.copy) := by
  induction l generalizing r₀ with
  | nil =>
    refine ⟨r₀, rfl, rfl, by simp, fun q _ => rfl, fun q hq => absurd hq (List.not_mem_nil q)⟩
  | cons c l' ih =>
    have hsc := hsome c (List.mem_cons_self c l')
    have hcl' : c ∉ l' := (List.nodup_cons.mp hnd).1
    have hnd' : l'.Nodup := (List.nodup_cons.mp hnd).2
    have hcr₀ : c ∉ r₀.constants := hdisj c (List.mem_cons_self c l')
    cases hca : s.data c with
    | none => rw [hca] at hsc; exact absurd hsc (by simp)
    | some a =>
      set st1 : DeviceHelper := r₀.update_const c a.copy with hst1
      have hst1p : st1.properties = r₀.properties := rfl
      have hst1c : st1.constants = r₀.constants ++ [c] := by
        show (if c ∈ r₀.constants then r₀.constants else r₀.constants ++ [c]) = _
        rw [if_neg hcr₀]
      have hst1d : ∀ q, q ≠ c → st1.data q = r₀.data q := by
        intro q hq
        show dictSet r₀.data c _ q = r₀.data q
        exact dictSet_ne _ _ _ _ hq
      have hst1dc : st1.data c = some a.copy := by
        show dictSet r₀.data c _ c = _
        exact dictSet_self _ _ _
      obtain ⟨r2, hr2, hr2p, hr2c, hr2d, hr2e⟩ := ih st1 hnd'
        (fun q hq => hsome q (List.mem_cons_of_mem c hq))
        (fun q hq => by
          rw [hst1c]
          intro hmem
          rcases List.mem_append.mp hmem with h | h
          · exact hdisj q (List.mem_cons_of_mem c hq) h
          · rcases List.mem_cons.mp h with rfl | h'
            · exact hcl' hq
            · exact absurd h' (List.not_mem_nil q))
      refine ⟨r2, ?_, ?_, ?_, ?_, ?_⟩
      · rw [List.foldlM_cons, hca]
        exact hr2
      · rw [hr2p, hst1p]
      · rw [hr2c, hst1c, List.append_assoc, List.singleton_append]
      · intro q hq
        have hq' : q ∉ l' := fun h => hq (List.mem_cons_of_mem c h)
        have hqc : q ≠ c := fun h => hq (h ▸ List.mem_cons_self c l')
        rw [hr2d q hq', hst1d q hqc]
      · intro q hq
        rcases List.mem_cons.mp hq with rfl | hq'
        · exact ⟨a, hca, by rw [hr2d q hcl', hst1dc]⟩
        · exact hr2e q hq'

/-- C6 (amended): `extract_particles(indices, props=None)` on a well-formed
store copies every constant into the result — for NONEMPTY `indices`.  For
empty `indices` the code returns a valid, empty store, but it returns EARLY,
before the constants loop, so no constant is copied then. -/
theorem extract_copies_constants (s : DeviceHelper) (n : ℕ) (indices : List ℕ)
    (hc : s.Consistent n) (htp : "tag" ∈ s.properties)
    (hnz : indices ≠ [])
    (hcn : s.constants.Nodup)
    (hcs : ∀ c ∈ s.constants, (s.data c).isSome ∧ c ∉ s.properties) :
    (∃ r, s.extract_particles indices none = some r ∧
      r.constants = s.constants ∧
      (∀ c ∈ s.constants, ∃ a, s.data c = some a ∧ r.data c = some a.copy)) ∧
    (∀ props : Option (List String), s.extract_particles [] props = some emptyHelper) := by
  constructor
  · obtain ⟨r1, hr1, hr1c, hr1p, hr1d, hr1e⟩ := extract_fold_eq s indices s.properties
      emptyHelper hc.1 hc.data_isSome (fun p _ => List.not_mem_nil p)
    obtain ⟨r2, hr2, hr2p, hr2c, hr2d, hr2e⟩ := const_fold_eq s s.constants r1 hcn
      (fun c hc' => (hcs c hc').1)
      (fun c _ => by rw [hr1c]; exact List.not_mem_nil c)
    have hr2props : r2.properties = s.properties := by
      rw [hr2p, hr1p]
      rfl
    have hcons2 : r2.Consistent indices.length := by
      constructor
      · rw [hr2props]
        exact hc.1
      · intro p hp
        rw [hr2props] at hp
        have hpnotc : p ∉ s.constants := fun hpc => (hcs p hpc).2 hp
        obtain ⟨src, hsrc, hdat⟩ := hr1e p hp
        refine ⟨⟨src.copy_values indices, indices.length⟩,
          by rw [hr2d p hpnotc, hdat], rfl, ?_⟩
        show indices.length ≤ (src.copy_values indices).length
        simp [DeviceArray.copy_values]
    have htag2 : (r2.data "tag").isSome :=
      hcons2.data_isSome "tag" (by rw [hr2props]; exact htp)
    obtain ⟨t2, ht2⟩ := Option.isSome_iff_exists.mp htag2
    obtain ⟨n2, hn2, -⟩ := DeviceHelper.get_number_some hcons2
    have halign := DeviceHelper.align_particles_eq r2 indices.length n2 t2 hcons2 ht2 hn2
    refine ⟨DeviceHelper.alignedStore r2 t2 n2, ?_, ?_, ?_⟩
    · unfold DeviceHelper.extract_particles
      show (if indices = [] then some emptyHelper
            else match s.properties.foldlM (fun r pname =>
                match s.data pname with
                | none => none
                | some srcArr =>
                  let dst : DeviceArray := ⟨srcArr.copy_values indices, indices.length⟩
                  let r' := { r with default_values :=
                    fun q => if q = pname then s.default_values pname
                             else r.default_values q }
                  some (r'.update_prop pname dst)) emptyHelper with
              | none => none
              | some r1 =>
                match s.constants.foldlM (fun r c =>
                    match s.data c with
                    | none => none
                    | some a => some (r.update_const c a.copy)) r1 with
                | none => none
                | some r2 => r2.align_particles) = _
      rw [if_neg hnz, hr1]
      show (match s.constants.foldlM (fun r c =>
              match s.data c with
              | none => none
              | some a => some (r.update_const c a.copy)) r1 with
            | none => none
            | some r2 => r2.align_particles) = _
      rw [hr2]
      exact halign
    · show r2.constants = s.constants
      rw [hr2c, hr1c]
      rfl
    · intro c hcmem
      obtain ⟨a, ha, hdat⟩ := hr2e c hcmem
      refine ⟨a, ha, ?_⟩
      show DeviceHelper.alignedData r2 (radixSortedIndices t2.array n2) c = some a.copy
      unfold DeviceHelper.alignedData
      rw [if_neg (by rw [hr2props]; exact (hcs c hcmem).2)]
      exact hdat
  · intro props
    rfl

/-- A 1-particle store with property `tag` and one constant `c`. -/
def c6Store : DeviceHelper :=
  { data := fun q => if q = "tag" then some ⟨[some 0], 1⟩
            else if q = "c" then some ⟨[some 5], 1⟩ else none,
    properties := ["tag"],
    constants := ["c"],
    default_values := fun _ => 0,
    num_real_particles := 0 }

/-- C6 counterexample: extracting with an EMPTY index set returns the fresh
empty store before the constants loop runs, so the source's constant `c` is
NOT copied into the result, contrary to the claim's "including when indices
is empty ... every constant is copied". -/
theorem extract_empty_indices_drops_constants :
    (DeviceHelper.extract_particles c6Store [] none).map DeviceHelper.constants
      = some [] ∧
    "c" ∈ c6Store.constants := by
  exact ⟨rfl, by decide⟩

/-- Witness for the amended C6 theorem on the concrete one-constant store. -/
theorem extract_copies_constants_witness :
    (∃ r, DeviceHelper.extract_particles c6Store [0] none = some r ∧
      r.constants = c6Store.constants ∧
      (∀ c ∈ c6Store.constants, ∃ a, c6Store.data c = some a ∧
        r.data c = some a.copy)) ∧
    (∀ props : Option (List String),
      DeviceHelper.extract_particles c6Store [] props = some emptyHelper) := by
  have hc : c6Store.Consistent 1 := by
    constructor
    · decide
    · intro p hp
      rcases List.mem_cons.mp hp with rfl | hp'
      · exact ⟨⟨[some 0], 1⟩, rfl, rfl, by decide⟩
      · exact absurd hp' (List.not_mem_nil p)
  have hcs : ∀ c ∈ c6Store.constants, (c6Store.data c).isSome ∧ c ∉ c6Store.properties := by
    intro c hcm
    rcases List.mem_cons.mp hcm with rfl | h
    · exact ⟨by decide, by decide⟩
    · exact absurd h (List.not_mem_nil c)
  exact extract_copies_constants c6Store 1 [0] hc (by decide) (by decide) (by decide) hcs

/-- One store-level structural operation from the mutual-consistency claim. -/
inductive StructOp where
  | add (input : List (String × List ℕ))
  | rem (indices : List ℕ)
  | remTag (tag : ℕ)
  | ext (num : ℤ)
  | app (other : DeviceHelper)

/-- Run one structural operation; `none` models a raised error. -/
def StructOp.run (s : DeviceHelper) : StructOp → Option DeviceHelper
  | .add input => s.add_particles input
  | .rem indices => s.remove_particles indices
  | .remTag tag => s.remove_tagged_particles tag
  | .ext num => s.extend num
  | .app other => s.append_parray other

/-- The documented preconditions of a structural call, relative to a naming
discipline `N` separating property names from constant names (the class
docstring "assumes that the names of constants and properties do not
clash"): `add_particles` takes equal-length nonempty value buffers;
`append_parray` takes a well-formed source store whose property names obey
`N` and whose constant names do not. -/
def StructOp.pre (N : String → Prop) : StructOp → Prop
  | .add input => (∀ pr ∈ input, ∀ pr' ∈ input,
        (pr : String × List ℕ).2.length = (pr' : String × List ℕ).2.length)
      ∧ (∀ pr ∈ input, (pr : String × List ℕ).2 ≠ [])
  | .app other => (∃ m, other.Consistent m)
      ∧ (∀ p ∈ other.properties, N p) ∧ (∀ c ∈ other.constants, ¬ N c)
  | _ => True

/-- A sequence of structural calls, stopping at the first raised error. -/
def runStructOps (s : DeviceHelper) (ops : List StructOp) : Option DeviceHelper :=
  ops.foldlM StructOp.run s

/-- A store is well formed for the naming discipline `N`: mutually
consistent property buffers, all of whose names obey `N`. -/
def DeviceHelper.WellFormed (N : String → Prop) (s : DeviceHelper) : Prop :=
  (∃ n, s.Consistent n) ∧ ∀ p ∈ s.properties, N p

theorem consistent_read (s : DeviceHelper) (n n₀ : ℕ) (hc : s.Consistent n)
    (hn : s.get_number_of_particles = some n₀) : s.Consistent n₀ := by
  cases hp : s.properties with
  | nil =>
    exact ⟨hc.1, fun p hmem => absurd (hp ▸ hmem) (List.not_mem_nil p)⟩
  | cons q t =>
    have heq := DeviceHelper.get_number_eq hc (by rw [hp]; exact List.cons_ne_nil q t)
    rw [heq] at hn
    injection hn with hn
    subst hn
    exact hc

theorem align_step_wf (N : String → Prop) (st s' : DeviceHelper) (M : ℕ)
    (hc : st.Consistent M) (hN : ∀ p ∈ st.properties, N p)
    (h : st.align_particles = some s') : s'.WellFormed N := by
  cases htag : st.data "tag" with
  | none =>
    unfold DeviceHelper.align_particles at h
    rw [htag] at h
    exact absurd h (by simp)
  | some t =>
    obtain ⟨n₀, hn₀, -⟩ := DeviceHelper.get_number_some hc
    have heq := DeviceHelper.align_particles_eq st M n₀ t hc htag hn₀
    rw [heq] at h
    injection h with h
    subst h
    exact ⟨⟨_, DeviceHelper.alignedStore_consistent st t M n₀ hc⟩, fun p hp => hN p hp⟩

theorem extend_run_wf (N : String → Prop) (s s' : DeviceHelper) (num : ℤ)
    (hwf : s.WellFormed N) (h : s.extend num = some s') : s'.WellFormed N := by
  obtain ⟨⟨n, hc⟩, hN⟩ := hwf
  unfold DeviceHelper.extend at h
  split at h
  · injection h with h
    subst h
    exact ⟨⟨n, hc⟩, hN⟩
  · cases hg : s.get_number_of_particles with
    | none => rw [hg] at h; exact absurd h (by simp)
    | some old =>
      rw [hg] at h
      replace h : s.overProps (fun p a =>
          (a.resize (old + num.toNat)).sliceFill old (s.default_values p)) = some s' := h
      have hc₀ := consistent_read s n old hc hg
      rw [overProps_eq s _ hc₀.1 hc₀.data_isSome] at h
      injection h with h
      subst h
      refine ⟨⟨old + num.toNat, ?_⟩, fun p hp => hN p hp⟩
      exact DeviceHelper.overProps_consistent s _ old (old + num.toNat) hc₀
        (fun p a _ _ _ _ =>
          ⟨by rw [DeviceArray.sliceFill_length, DeviceArray.resize_length],
           by rw [DeviceArray.sliceFill_length, DeviceArray.sliceFill_data_length]
              exact DeviceArray.resize_WF a _⟩)

theorem add_run_wf (N : String → Prop) (s s' : DeviceHelper)
    (input : List (String × List ℕ)) (hwf : s.WellFormed N)
    (hpre : ∀ pr ∈ input, ∀ pr' ∈ input,
      (pr : String × List ℕ).2.length = (pr' : String × List ℕ).2.length)
    (h : s.add_particles input = some s') : s'.WellFormed N := by
  obtain ⟨⟨n, hc⟩, hN⟩ := hwf
  cases input with
  | nil =>
    unfold DeviceHelper.add_particles at h
    injection h with h
    subst h
    exact ⟨⟨n, hc⟩, hN⟩
  | cons pr₀ rest =>
    obtain ⟨p₀, vs₀⟩ := pr₀
    unfold DeviceHelper.add_particles at h
    replace h : (if (((p₀, vs₀) :: rest).all fun pr => decide (pr.1 ∈ s.properties)) = true
        then
          match s.get_number_of_particles with
          | none => none
          | some old =>
            match s.overProps fun p a =>
                match lookupStr ((p₀, vs₀) :: rest) p with
                | some vs => a.extend vs
                | none => (a.resize (vs₀.length + old)).sliceFill old
                    (s.default_values p) with
            | none => none
            | some s₁ => if 0 < vs₀.length then s₁.align_particles else some s₁
        else none) = some s' := h
    split at h
    · rename_i hall
      have hp₀ : p₀ ∈ s.properties := by
        have := List.all_eq_true.mp hall (p₀, vs₀) (List.mem_cons_self _ _)
        simpa using this
      have hne : s.properties ≠ [] := fun hnil => (List.not_mem_nil p₀) (hnil ▸ hp₀)
      rw [DeviceHelper.get_number_eq hc hne] at h
      set f : String → DeviceArray → DeviceArray := fun p a =>
        match lookupStr ((p₀, vs₀) :: rest) p with
        | some vs => a.extend vs
        | none => (a.resize (vs₀.length + n)).sliceFill n (s.default_values p) with hf
      replace h : (match s.overProps f with
          | none => none
          | some s₁ => if 0 < vs₀.length then s₁.align_particles else some s₁)
          = some s' := h
      rw [overProps_eq s f hc.1 hc.data_isSome] at h
      set S₁ : DeviceHelper := { s with data := fun q =>
        if q ∈ s.properties then (s.data q).map (f q) else s.data q } with hS₁
      replace h : (if 0 < vs₀.length then S₁.align_particles else some S₁) = some s' := h
      have hcons₁ : S₁.Consistent (n + vs₀.length) := by
        rw [hS₁]
        refine DeviceHelper.overProps_consistent s f n (n + vs₀.length) hc ?_
        intro p a hp ha hlen hwfa
        cases hl : lookupStr ((p₀, vs₀) :: rest) p with
        | some vs =>
          have hfa : f p a = a.extend vs := by simp only [hf]; rw [hl]
          have hvlen : vs.length = vs₀.length :=
            hpre (p, vs) (lookupStr_mem _ _ _ hl) (p₀, vs₀) (List.mem_cons_self _ _)
          constructor
          · rw [hfa, DeviceArray.extend_length, hlen, hvlen]
          · rw [hfa]
            exact DeviceArray.extend_WF a vs
        | none =>
          have hfa : f p a = (a.resize (vs₀.length + n)).sliceFill n
              (s.default_values p) := by simp only [hf]; rw [hl]
          constructor
          · rw [hfa, DeviceArray.sliceFill_length, DeviceArray.resize_length]
            omega
          · rw [hfa, DeviceArray.sliceFill_length, DeviceArray.sliceFill_data_length]
            exact DeviceArray.resize_WF a _
      split at h
      · exact align_step_wf N S₁ s' (n + vs₀.length) hcons₁ (fun p hp => hN p hp) h
      · injection h with h
        subst h
        exact ⟨⟨n + vs₀.length, hcons₁⟩, fun p hp => hN p hp⟩
    · exact absurd h (by simp)

theorem remove_run_wf (N : String → Prop) (s s' : DeviceHelper) (indices : List ℕ)
    (hwf : s.WellFormed N) (h : s.remove_particles indices = some s') :
    s'.WellFormed N := by
  obtain ⟨⟨n, hc⟩, hN⟩ := hwf
  unfold DeviceHelper.remove_particles at h
  cases hg : s.get_number_of_particles with
  | none => rw [hg] at h; exact absurd h (by simp)
  | some n₀ =>
    rw [hg] at h
    have hc₀ := consistent_read s n n₀ hc hg
    set A := if indices.length = 0 then ([] : List ℕ)
             else ((List.range n₀).filter (fun i => !(indices.contains i))).take
                    (n₀ - indices.length) with hA
    replace h : (if indices.length > n₀ then none
        else match s.align A with
          | none => none
          | some s₁ => if 0 < indices.length then s₁.align_particles else some s₁)
        = some s' := h
    split at h
    · exact absurd h (by simp)
    · rw [DeviceHelper.align_eq s A hc₀.1 hc₀.data_isSome] at h
      replace h : (if 0 < indices.length
          then ({ s with data := DeviceHelper.alignedData s A } :
              DeviceHelper).align_particles
          else some { s with data := DeviceHelper.alignedData s A }) = some s' := h
      have hcons₁ : ({ s with data := DeviceHelper.alignedData s A } :
          DeviceHelper).Consistent A.length :=
        DeviceHelper.overProps_consistent s (fun _ a => a.align A) n₀ A.length hc₀
          (fun p a _ _ _ _ => ⟨DeviceArray.align_length a A,
            le_of_eq ((DeviceArray.align_length a A).trans
              (DeviceArray.align_data_length a A).symm)⟩)
      split at h
      · exact align_step_wf N _ s' A.length hcons₁ (fun p hp => hN p hp) h
      · injection h with h
        subst h
        exact ⟨⟨A.length, hcons₁⟩, fun p hp => hN p hp⟩

theorem remove_tagged_run_wf (N : String → Prop) (s s' : DeviceHelper) (tag : ℕ)
    (hwf : s.WellFormed N) (h : s.remove_tagged_particles tag = some s') :
    s'.WellFormed N := by
  unfold DeviceHelper.remove_tagged_particles at h
  cases htag : s.data "tag" with
  | none => rw [htag] at h; exact absurd h (by simp)
  | some t =>
    rw [htag] at h
    replace h : (if ((List.range t.array.length).filter
          (fun i => t.array.getD i none == some tag)).length = 0 then some s
        else s.remove_particles ((List.range t.array.length).filter
          (fun i => t.array.getD i none == some tag))) = some s' := h
    split at h
    · injection h with h
      subst h
      exact hwf
    · exact remove_run_wf N s s' _ hwf h

theorem DeviceArray.fill_length (a : DeviceArray) (v : ℕ) : (a.fill v).length = a.length := rfl

theorem DeviceArray.fill_data_length (a : DeviceArray) (v : ℕ) :
    (a.fill v).data.length = a.data.length := by
  show (List.replicate _ _ ++ _).length = _
  simp

theorem DeviceArray.init_length (n : ℕ) : (DeviceArray.init n).length = n := rfl

theorem DeviceArray.init_data_length_pos (n : ℕ) (h : 0 < n) :
    (DeviceArray.init n).data.length = n := by
  show (List.replicate (if n = 0 then 16 else n) _).length = n
  rw [List.length_replicate, if_neg (by omega)]

theorem nodup_append_singleton (l : List String) (p : String) (h1 : l.Nodup)
    (h2 : p ∉ l) : (l ++ [p]).Nodup := by
  rw [List.nodup_append]
  refine ⟨h1, List.nodup_singleton p, ?_⟩
  intro a ha hap
  rcases List.mem_cons.mp hap with rfl | h
  · exact h2 ha
  · exact absurd h (List.not_mem_nil a)

theorem append_fold_wf (N : String → Prop) (other : DeviceHelper)
    (oldNum onum : ℕ) (hop : 0 < onum) (l : List String)
    (harr : ∀ p ∈ l, ∃ src, other.data p = some src ∧ src.array.length = onum)
    (hlN : ∀ p ∈ l, N p)
    (st st2 : DeviceHelper)
    (hcst : st.Consistent (oldNum + onum))
    (hNst : ∀ p ∈ st.properties, N p)
    (h : l.foldlM (fun st pname =>
        if pname ∈ st.properties then
          match st.data pname, other.data pname with
          | some arr, some src =>
              some { st with data := dictSet st.data pname
                               (arr.sliceAssign oldNum src.array) }
          | _, _ => none
        else
          match st.data pname with
          | none => none
          | some _ =>
            let arr := (DeviceArray.init (onum + oldNum)).fill
                         (other.default_values pname)
            let st' := st.update_prop pname arr
            match st'.data pname, other.data pname with
            | some dest, some src =>
                some { st' with data := dictSet st'.data pname
                                  (dest.sliceAssign oldNum src.array) }
            | _, _ => none) st = some st2) :
    st2.Consistent (oldNum + onum) ∧ ∀ p ∈ st2.properties, N p := by
  induction l generalizing st with
  | nil =>
    replace h : some st = some st2 := h
    injection h with h
    subst h
    exact ⟨hcst, hNst⟩
  | cons pname l' ih =>
    rw [List.foldlM_cons] at h
    obtain ⟨st1, hstep, hrest⟩ := Option.bind_eq_some.mp h
    obtain ⟨src, hsrc, hsrclen⟩ := harr pname (List.mem_cons_self pname l')
    have hNp : N pname := hlN pname (List.mem_cons_self pname l')
    have harr' : ∀ p ∈ l', ∃ src, other.data p = some src ∧ src.array.length = onum :=
      fun p hp => harr p (List.mem_cons_of_mem pname hp)
    have hlN' : ∀ p ∈ l', N p := fun p hp => hlN p (List.mem_cons_of_mem pname hp)
    split at hstep
    · -- pname already a property of st: write the tail in place
      rename_i hmem
      obtain ⟨arr, harrst, hlenarr, hwfarr⟩ := hcst.2 pname hmem
      rw [harrst, hsrc] at hstep
      injection hstep with hstep
      refine ih harr' hlN' st1 ?_ ?_ hrest
      · rw [← hstep]
        constructor
        · exact hcst.1
        · intro p hp
          by_cases hpq : p = pname
          · subst hpq
            refine ⟨arr.sliceAssign oldNum src.array, ?_, ?_, ?_⟩
            · show dictSet st.data p (arr.sliceAssign oldNum src.array) p = _
              exact dictSet_self _ _ _
            · rw [DeviceArray.sliceAssign_length]
              exact hlenarr
            · rw [DeviceArray.sliceAssign_length,
                DeviceArray.sliceAssign_data_length arr oldNum src.array (by omega)]
              exact hwfarr
          · obtain ⟨a, ha, h1, h2⟩ := hcst.2 p hp
            refine ⟨a, ?_, h1, h2⟩
            show dictSet st.data pname (arr.sliceAssign oldNum src.array) p = _
            rw [dictSet_ne _ _ _ _ hpq]
            exact ha
      · rw [← hstep]
        exact fun p hp => hNst p hp
    · -- new property: the dtype lookup succeeded (pname is in self._data)
      rename_i hmem
      cases hd : st.data pname with
      | none => rw [hd] at hstep; exact absurd hstep (by simp)
      | some w =>
        rw [hd] at hstep
        replace hstep :
            (match (st.update_prop pname ((DeviceArray.init (onum + oldNum)).fill
                  (other.default_values pname))).data pname, other.data pname with
             | some dest, some src =>
                 some { st.update_prop pname ((DeviceArray.init (onum + oldNum)).fill
                          (other.default_values pname)) with
                        data := dictSet (st.update_prop pname
                            ((DeviceArray.init (onum + oldNum)).fill
                              (other.default_values pname))).data pname
                          (dest.sliceAssign oldNum src.array) }
             | _, _ => none) = some st1 := hstep
        have h1 : (st.update_prop pname ((DeviceArray.init (onum + oldNum)).fill
            (other.default_values pname))).data pname
            = some ((DeviceArray.init (onum + oldNum)).fill
                (other.default_values pname)) := by
          show dictSet st.data pname _ pname = _
          exact dictSet_self _ _ _
        rw [h1, hsrc] at hstep
        injection hstep with hstep
        have hfl : ((DeviceArray.init (onum + oldNum)).fill
            (other.default_values pname)).length = onum + oldNum := rfl
        have hfd : ((DeviceArray.init (onum + oldNum)).fill
            (other.default_values pname)).data.length = onum + oldNum := by
          rw [DeviceArray.fill_data_length, DeviceArray.init_data_length_pos _ (by omega)]
        have hprops1 : (st.update_prop pname ((DeviceArray.init (onum + oldNum)).fill
            (other.default_values pname))).properties = st.properties ++ [pname] := by
          show (if pname ∈ st.properties then st.properties
                else st.properties ++ [pname]) = _
          rw [if_neg hmem]
        refine ih harr' hlN' st1 ?_ ?_ hrest
        · rw [← hstep]
          constructor
          · show (st.update_prop pname ((DeviceArray.init (onum + oldNum)).fill
                (other.default_values pname))).properties.Nodup
            rw [hprops1]
            exact nodup_append_singleton st.properties pname hcst.1 hmem
          · intro p hp
            rw [hprops1] at hp
            show ∃ a, dictSet (st.update_prop pname ((DeviceArray.init (onum + oldNum)).fill
                (other.default_values pname))).data pname
                (((DeviceArray.init (onum + oldNum)).fill
                  (other.default_values pname)).sliceAssign oldNum src.array) p
              = some a ∧ a.length = oldNum + onum ∧ a.length ≤ a.data.length
            rcases List.mem_append.mp hp with hpin | hpsing
            · have hpq : p ≠ pname := fun hq => hmem (hq ▸ hpin)
              rw [dictSet_ne _ _ _ _ hpq]
              obtain ⟨a, ha, h2, h3⟩ := hcst.2 p hpin
              refine ⟨a, ?_, h2, h3⟩
              show dictSet st.data pname _ p = _
              rw [dictSet_ne _ _ _ _ hpq]
              exact ha
            · rcases List.mem_cons.mp hpsing with rfl | hfalse
              · rw [dictSet_self]
                refine ⟨_, rfl, ?_, ?_⟩
                · rw [DeviceArray.sliceAssign_length, hfl]
                  omega
                · rw [DeviceArray.sliceAssign_length,
                    DeviceArray.sliceAssign_data_length _ oldNum src.array
                      (by rw [hfl, hfd]; omega)]
                  rw [hfl, hfd]
              · exact absurd hfalse (List.not_mem_nil p)
        · rw [← hstep]
          intro p hp
          show N p
          rw [show ({ st.update_prop pname ((DeviceArray.init (onum + oldNum)).fill
              (other.default_values pname)) with
              data := dictSet (st.update_prop pname
                  ((DeviceArray.init (onum + oldNum)).fill
                    (other.default_values pname))).data pname
                (((DeviceArray.init (onum + oldNum)).fill
                  (other.default_values pname)).sliceAssign oldNum src.array) } :
              DeviceHelper).properties
              = st.properties ++ [pname] from hprops1] at hp
          rcases List.mem_append.mp hp with hpin | hpsing
          · exact hNst p hpin
          · rcases List.mem_cons.mp hpsing with rfl | hfalse
            · exact hNp
            · exact absurd hfalse (List.not_mem_nil p)

theorem append_const_fold_wf (N : String → Prop) (other : DeviceHelper) (M : ℕ)
    (l : List String) (hlN : ∀ c ∈ l, ¬ N c) (st st2 : DeviceHelper)
    (hcst : st.Consistent M) (hNst : ∀ p ∈ st.properties, N p)
    (h : l.foldlM (fun st cname =>
        if cname ∈ st.constants then some st
        else
          match other.data cname with
          | none => none
          | some arr => some (st.update_const cname arr.copy)) st = some st2) :
    st2.Consistent M ∧ ∀ p ∈ st2.properties, N p := by
  induction l generalizing st with
  | nil =>
    replace h : some st = some st2 := h
    injection h with h
    subst h
    exact ⟨hcst, hNst⟩
  | cons cname l' ih =>
    rw [List.foldlM_cons] at h
    obtain ⟨st1, hstep, hrest⟩ := Option.bind_eq_some.mp h
    have hNc : ¬ N cname := hlN cname (List.mem_cons_self cname l')
    have hlN' : ∀ c ∈ l', ¬ N c := fun c hc => hlN c (List.mem_cons_of_mem cname hc)
    split at hstep
    · injection hstep with hstep
      subst hstep
      exact ih hlN' st hcst hNst hrest
    · cases hd : other.data cname with
      | none => rw [hd] at hstep; exact absurd hstep (by simp)
      | some arr =>
        rw [hd] at hstep
        injection hstep with hstep
        refine ih hlN' st1 ?_ ?_ hrest
        · rw [← hstep]
          constructor
          · exact hcst.1
          · intro p hp
            have hpc : p ≠ cname := fun hq => hNc (hq ▸ hNst p hp)
            obtain ⟨a, ha, h1, h2⟩ := hcst.2 p hp
            refine ⟨a, ?_, h1, h2⟩
            show dictSet st.data cname arr.copy p = _
            rw [dictSet_ne _ _ _ _ hpc]
            exact ha
        · rw [← hstep]
          exact fun p hp => hNst p hp

/-- The store with every property buffer transformed by `f` (the shape of an
`overProps` result). -/
def DeviceHelper.mapProps (s : DeviceHelper) (f : String → DeviceArray → DeviceArray) :
    DeviceHelper :=
  { s with
    data := fun q => if q ∈ s.properties then (s.data q).map (f q) else s.data q }

theorem append_run_wf (N : String → Prop) (s s' other : DeviceHelper)
    (hwf : s.WellFormed N)
    (hpre : (∃ m, other.Consistent m) ∧ (∀ p ∈ other.properties, N p)
      ∧ (∀ c ∈ other.constants, ¬ N c))
    (h : s.append_parray other = some s') : s'.WellFormed N := by
  obtain ⟨⟨n, hc⟩, hN⟩ := hwf
  obtain ⟨⟨mo, hco⟩, hpN, hcN⟩ := hpre
  unfold DeviceHelper.append_parray at h
  cases hon : other.get_number_of_particles with
  | none => rw [hon] at h; exact absurd h (by simp)
  | some onum =>
    rw [hon] at h
    by_cases honz : onum = 0
    · replace h : some s = some s' := by
        rw [← h]
        show some s = if onum = 0 then some s else _
        rw [if_pos honz]
      injection h with h
      subst h
      exact ⟨⟨n, hc⟩, hN⟩
    · cases hgs : s.get_number_of_particles with
      | none =>
        replace h : (match s.get_number_of_particles with
            | none => none
            | some oldNum =>
              match s.extend (onum : ℤ) with
              | none => none
              | some s1 =>
                match other.properties.foldlM (fun st pname =>
                  if pname ∈ st.properties then
                    match st.data pname, other.data pname with
                    | some arr, some src =>
                        some { st with data := dictSet st.data pname
                                         (arr.sliceAssign oldNum src.array) }
                    | _, _ => none
                  else
                    match st.data pname with
                    | none => none
                    | some _ =>
                      let arr := (DeviceArray.init (onum + oldNum)).fill
                                   (other.default_values pname)
                      let st' := st.update_prop pname arr
                      match st'.data pname, other.data pname with
                      | some dest, some src =>
                          some { st' with data := dictSet st'.data pname
                                            (dest.sliceAssign oldNum src.array) }
                      | _, _ => none) s1 with
                | none => none
                | some s2 =>
                  match other.constants.foldlM (fun st cname =>
                    if cname ∈ st.constants then some st
                    else
                      match other.data cname with
                      | none => none
                      | some arr => some (st.update_const cname arr.copy)) s2 with
                  | none => none
                  | some s3 => if 0 < onum then s3.align_particles else some s3)
            = some s' := by
          rw [← h]
          show _ = if onum = 0 then some s else _
          rw [if_neg honz]
        rw [hgs] at h
        exact absurd h (by simp)
      | some oldNum =>
        replace h : (match s.extend (onum : ℤ) with
            | none => none
            | some s1 =>
              match other.properties.foldlM (fun st pname =>
                if pname ∈ st.properties then
                  match st.data pname, other.data pname with
                  | some arr, some src =>
                      some { st with data := dictSet st.data pname
                                       (arr.sliceAssign oldNum src.array) }
                  | _, _ => none
                else
                  match st.data pname with
                  | none => none
                  | some _ =>
                    let arr := (DeviceArray.init (onum + oldNum)).fill
                                 (other.default_values pname)
                    let st' := st.update_prop pname arr
                    match st'.data pname, other.data pname with
                    | some dest, some src =>
                        some { st' with data := dictSet st'.data pname
                                          (dest.sliceAssign oldNum src.array) }
                    | _, _ => none) s1 with
              | none => none
              | some s2 =>
                match other.constants.foldlM (fun st cname =>
                  if cname ∈ st.constants then some st
                  else
                    match other.data cname with
                    | none => none
                    | some arr => some (st.update_const cname arr.copy)) s2 with
                | none => none
                | some s3 => if 0 < onum then s3.align_particles else some s3)
            = some s' := by
          rw [← h]
          show _ = if onum = 0 then some s else _
          rw [if_neg honz, hgs]
        have hc₀ := consistent_read s n oldNum hc hgs
        set f : String → DeviceArray → DeviceArray := fun p a =>
          (a.resize (oldNum + (onum : ℤ).toNat)).sliceFill oldNum
            (s.default_values p) with hf
        have hext : s.extend (onum : ℤ) = some (s.mapProps f) := by
          unfold DeviceHelper.extend
          rw [if_neg (by omega : ¬ (onum : ℤ) ≤ 0), hgs]
          show s.overProps f = _
          exact overProps_eq s f hc₀.1 hc₀.data_isSome
        rw [hext] at h
        have hcons1 : (s.mapProps f).Consistent (oldNum + onum) := by
          have := DeviceHelper.overProps_consistent s f oldNum (oldNum + onum) hc₀
            (fun p a _ _ _ _ =>
              ⟨by simp only [hf]
                  rw [DeviceArray.sliceFill_length, DeviceArray.resize_length,
                    Int.toNat_natCast],
               by simp only [hf]
                  rw [DeviceArray.sliceFill_length, DeviceArray.sliceFill_data_length]
                  exact DeviceArray.resize_WF a _⟩)
          exact this
        have hN1 : ∀ p ∈ (s.mapProps f).properties, N p := fun p hp => hN p hp
        set F : DeviceHelper → String → Option DeviceHelper := fun st pname =>
          if pname ∈ st.properties then
            match st.data pname, other.data pname with
            | some arr, some src =>
                some { st with data := dictSet st.data pname
                                 (arr.sliceAssign oldNum src.array) }
            | _, _ => none
          else
            match st.data pname with
            | none => none
            | some _ =>
              let arr := (DeviceArray.init (onum + oldNum)).fill
                           (other.default_values pname)
              let st' := st.update_prop pname arr
              match st'.data pname, other.data pname with
              | some dest, some src =>
                  some { st' with data := dictSet st'.data pname
                                    (dest.sliceAssign oldNum src.array) }
              | _, _ => none with hF
        set CF : DeviceHelper → String → Option DeviceHelper := fun st cname =>
          if cname ∈ st.constants then some st
          else
            match other.data cname with
            | none => none
            | some arr => some (st.update_const cname arr.copy) with hCF
        replace h : (match other.properties.foldlM F (s.mapProps f) with
            | none => none
            | some s2 =>
              match other.constants.foldlM CF s2 with
              | none => none
              | some s3 => if 0 < onum then s3.align_particles else some s3)
            = some s' := h
        cases hfold : other.properties.foldlM F (s.mapProps f) with
        | none => rw [hfold] at h; exact absurd h (by simp)
        | some s2 =>
          rw [hfold] at h
          have harr : ∀ p ∈ other.properties,
              ∃ src, other.data p = some src ∧ src.array.length = onum := by
            intro p hp
            obtain ⟨src, hsrc, hlen, hwfs⟩ := hco.2 p hp
            refine ⟨src, hsrc, ?_⟩
            rw [DeviceArray.array_length src hwfs, hlen]
            have hpe : other.properties ≠ [] :=
              fun hnil => (List.not_mem_nil p) (hnil ▸ hp)
            have hgo := DeviceHelper.get_number_eq hco hpe
            rw [hgo] at hon
            exact Option.some.inj hon
          obtain ⟨hcons2, hN2⟩ := append_fold_wf N other oldNum onum (by omega)
            other.properties harr hpN (s.mapProps f) s2 hcons1 hN1 hfold
          replace h : (match other.constants.foldlM CF s2 with
              | none => none
              | some s3 => if 0 < onum then s3.align_particles else some s3)
              = some s' := h
          cases hcfold : other.constants.foldlM CF s2 with
          | none => rw [hcfold] at h; exact absurd h (by simp)
          | some s3 =>
            rw [hcfold] at h
            obtain ⟨hcons3, hN3⟩ := append_const_fold_wf N other (oldNum + onum)
              other.constants hcN s2 s3 hcons2 hN2 hcfold
            replace h : (if 0 < onum then s3.align_particles else some s3) = some s' := h
            split at h
            · exact align_step_wf N s3 s' (oldNum + onum) hcons3 hN3 h
            · injection h with h
              subst h
              exact ⟨⟨oldNum + onum, hcons3⟩, hN3⟩

theorem StructOp.run_wf (N : String → Prop) (s s' : DeviceHelper) (op : StructOp)
    (hwf : s.WellFormed N) (hpre : op.pre N) (h : StructOp.run s op = some s') :
    s'.WellFormed N := by
  cases op with
  | add input => exact add_run_wf N s s' input hwf hpre.1 h
  | rem indices => exact remove_run_wf N s s' indices hwf h
  | remTag tag => exact remove_tagged_run_wf N s s' tag hwf h
  | ext num => exact extend_run_wf N s s' num hwf h
  | app other => exact append_run_wf N s s' other hwf hpre h

theorem runStructOps_wf (N : String → Prop) (ops : List StructOp)
    (s s' : DeviceHelper) (hwf : s.WellFormed N) (hpre : ∀ op ∈ ops, op.pre N)
    (h : runStructOps s ops = some s') : s'.WellFormed N := by
  induction ops generalizing s with
  | nil =>
    replace h : some s = some s' := h
    injection h with h
    subst h
    exact hwf
  | cons op rest ih =>
    unfold runStructOps at h
    rw [List.foldlM_cons] at h
    cases hstep : StructOp.run s op with
    | none => rw [hstep] at h; exact absurd h (by simp)
    | some s1 =>
      rw [hstep] at h
      replace h : runStructOps s1 rest = some s' := h
      exact ih s1
        (StructOp.run_wf N s s1 op hwf (hpre op (List.mem_cons_self op rest)) hstep)
        (fun op' hop' => hpre op' (List.mem_cons_of_mem op hop')) h

/-- C8: mutual consistency.  After any successful sequence of the structural
operations `add_particles`, `remove_particles`, `remove_tagged_particles`,
`extend` and `append_parray`, each invoked within its documented
preconditions (equal-length value buffers for `add_particles`; for
`append_parray` a mutually consistent source store obeying the class's
documented property/constant naming discipline `N`), starting from a store
whose property buffers are mutually consistent and whose property names obey
`N`, every property buffer of the resulting store has identical length. -/
theorem structural_mutual_consistency (N : String → Prop) (ops : List StructOp)
    (s s' : DeviceHelper) (hwf : s.WellFormed N) (hpre : ∀ op ∈ ops, op.pre N)
    (h : runStructOps s ops = some s') :
    ∃ m, ∀ p ∈ s'.properties, ∃ a, s'.data p = some a ∧ a.length = m := by
  obtain ⟨⟨m, hc⟩, -⟩ := runStructOps_wf N ops s s' hwf hpre h
  refine ⟨m, fun p hp => ?_⟩
  obtain ⟨a, ha, hl, -⟩ := hc.2 p hp
  exact ⟨a, ha, hl⟩

theorem structural_mutual_consistency_witness :
    ∃ s', runStructOps egStore [StructOp.ext 1] = some s' ∧
      ∃ m, ∀ p ∈ s'.properties, ∃ a, s'.data p = some a ∧ a.length = m := by
  obtain ⟨s', hs'⟩ := Option.isSome_iff_exists.mp
    (show (runStructOps egStore [StructOp.ext 1]).isSome = true from rfl)
  exact ⟨s', hs', structural_mutual_consistency (fun _ => True) [StructOp.ext 1]
    egStore s' ⟨⟨1, egStore_consistent⟩, fun _ _ => trivial⟩
    (fun op hop => by
      have hop' := List.mem_singleton.mp hop
      subst hop'
      trivial) hs'⟩
